import Mathlib

/-!
Verification development for the Occura occurrence-highlighting engine.

Strings are modelled as `List Char`.  The JavaScript regular expressions the
program builds are modelled by their source character sequence plus the
ignore-case flag; the fragment of regex syntax that `buildRegex` can produce
(escaped literal characters and the word-boundary assertion) is given an
executable semantics via `parseTokens` / `toksMatchAt`.  The stateful global
matcher (`lastIndex` threading of JavaScript `RegExp.exec`) is modelled by
`jsExec` / `execLoopS`.
-/

namespace Occura

abbrev Str := List Char

/-- Characters with a special meaning in RegExp, exactly the class
`[.*+?^$\x7b\x7d()|[\]\\]` used by `escapeRegex` in `src/highlighter.ts`. -/
def isRegexMeta (c : Char) : Bool :=
  c == '.' || c == '*' || c == '+' || c == '?' || c == '^' || c == '$' ||
  c == '\x7b' || c == '\x7d' || c == '(' || c == ')' || c == '|' ||
  c == '[' || c == ']' || c == '\\'

/-- `escapeRegex` from `src/highlighter.ts`: prepend a backslash to every
regex metacharacter (`text.replace(/[.*+?^$\x7b\x7d()|[\]\\]/g, '\\$&')`). -/
def escapeRegex (text : Str) : Str :=
  text.flatMap (fun c => if isRegexMeta c then ['\\', c] else [c])

/-- The `\w` character class of JavaScript: `[A-Za-z0-9_]`. -/
def isWordChar (c : Char) : Bool :=
  ('a' ≤ c && c ≤ 'z') || ('A' ≤ c && c ≤ 'Z') || ('0' ≤ c && c ≤ '9') || c == '_'

/-- A compiled JavaScript regex: its source text and the ignore-case flag.
The global flag is always set by `buildRegex` and is modelled by the
exec-all scanning functions below. -/
structure JsRegex where
  source : Str
  ignoreCase : Bool
deriving DecidableEq

/-- `buildRegex` from `src/highlighter.ts`: escape the text; if `wholeWord`
is requested and the text matches `/^\w+$/` (nonempty, all word characters)
wrap it in `\b ... \b`; flags are `'g'` or `'gi'`. -/
def buildRegex (text : Str) (caseSensitive : Bool) (wholeWord : Bool := true) : JsRegex :=
  let escaped := escapeRegex text
  let needBoundary := wholeWord && (!text.isEmpty && text.all isWordChar)
  if needBoundary then
    JsRegex.mk (('\\' :: 'b' :: escaped) ++ ['\\', 'b']) (!caseSensitive)
  else
    JsRegex.mk escaped (!caseSensitive)

/-- Tokens of the regex fragment producible by `buildRegex`: literal
characters and the word-boundary assertion `\b`. -/
inductive RTok where
  | lit (c : Char)
  | wordB
deriving DecidableEq

/-- Parse a regex source into tokens.  An escaped metacharacter denotes the
literal character, `\b` denotes the word-boundary assertion, and any
unescaped non-metacharacter denotes itself.  Sources outside this fragment
(which `buildRegex` never produces) are rejected with `none`. -/
def parseTokens : Str → Option (List RTok)
  | [] => some []
  | c :: rest =>
    if c = '\\' then
      match rest with
      | [] => none
      | c2 :: rest2 =>
        if c2 = 'b' then (parseTokens rest2).map (fun ts => RTok.wordB :: ts)
        else if isRegexMeta c2 then (parseTokens rest2).map (fun ts => RTok.lit c2 :: ts)
        else none
    else if isRegexMeta c then none
    else (parseTokens rest).map (fun ts => RTok.lit c :: ts)

/-- Character comparison under the ignore-case flag (ASCII-style fold, as
performed by the `i` flag on the ASCII range). -/
def charMatches (ic : Bool) (p c : Char) : Bool :=
  if ic then p.toLower == c.toLower else p == c

/-- Is the character at position `i` a word character (out of range counts
as non-word)? -/
def wordAt (doc : Str) (i : Nat) : Bool :=
  match doc[i]? with
  | some c => isWordChar c
  | none => false

/-- JavaScript `\b`: a word boundary holds at position `i` iff exactly one
of the character before `i` and the character at `i` is a word character. -/
def boundaryAt (doc : Str) (i : Nat) : Bool :=
  (if i == 0 then false else wordAt doc (i - 1)) != wordAt doc i

/-- Match a token list at position `i` of `doc`; returns the end position on
success.  Literals consume one character, boundaries are zero-width. -/
def toksMatchAt (ic : Bool) : List RTok → Str → Nat → Option Nat
  | [], _, i => some i
  | RTok.wordB :: rest, doc, i =>
    if boundaryAt doc i then toksMatchAt ic rest doc i else none
  | RTok.lit p :: rest, doc, i =>
    match doc[i]? with
    | some c => if charMatches ic p c then toksMatchAt ic rest doc (i + 1) else none
    | none => none

/-- Number of literal tokens: the exact number of characters any match
consumes. -/
def countLits : List RTok → Nat
  | [] => 0
  | RTok.lit _ :: rest => countLits rest + 1
  | RTok.wordB :: rest => countLits rest

/-- Search positions `i, i+1, ...` for the first match; `rem` is the suffix
`text.drop i`, which drives the structural recursion. -/
def findFromAux (ic : Bool) (toks : List RTok) (text : Str) : Str → Nat → Option (Nat × Nat)
  | rem, i =>
    match toksMatchAt ic toks text i with
    | some e => some (i, e)
    | none =>
      match rem with
      | [] => none
      | _ :: rest => findFromAux ic toks text rest (i + 1)

/-- First match of the token list at a position `≥ i` (`i ≤ text.length`). -/
def findFrom (ic : Bool) (toks : List RTok) (text : Str) (i : Nat) : Option (Nat × Nat) :=
  findFromAux ic toks text (text.drop i) i

/-- JavaScript `RegExp.exec` for a global regex with `lastIndex = li`:
if `li` exceeds the text length or no match is found, the result is `null`
and `lastIndex` is reset to `0`; otherwise the first match at a position
`≥ li` is returned and `lastIndex` is set to its end. -/
def jsExec (ic : Bool) (toks : List RTok) (text : Str) (li : Nat) :
    Option (Nat × Nat) × Nat :=
  if li > text.length then (none, 0)
  else
    match findFrom ic toks text li with
    | some (s, e) => (some (s, e), e)
    | none => (none, 0)

/-- The `while ((m = re.exec(text)))` loop: repeatedly exec, threading
`lastIndex`, collecting all matches; returns the matches together with the
final `lastIndex`.  The fuel argument only bounds the iteration count; for
consuming patterns `text.length + 1` iterations always suffice because every
match advances `lastIndex`.  (On a zero-width match the real loop would not
terminate.) -/
def execLoopF (ic : Bool) (toks : List RTok) (text : Str) :
    Nat → Nat → List (Nat × Nat) × Nat
  | 0, _ => ([], 0)
  | fuel + 1, li =>
    match jsExec ic toks text li with
    | (none, li2) => ([], li2)
    | (some (s, e), li2) =>
      if li < li2 then
        ((s, e) :: (execLoopF ic toks text fuel li2).1,
          (execLoopF ic toks text fuel li2).2)
      else ([(s, e)], li2)

/-- The exec loop run to exhaustion from `lastIndex = li`. -/
def execLoopS (ic : Bool) (toks : List RTok) (text : Str) (li : Nat) :
    List (Nat × Nat) × Nat :=
  execLoopF ic toks text (text.length + 1) li

/-- All matches of a freshly-created global regex (`lastIndex` starts at 0). -/
def jsExecAll (ic : Bool) (toks : List RTok) (text : Str) : List (Nat × Nat) :=
  (execLoopS ic toks text 0).1

/-- All matches of a compiled `JsRegex` on `text` (unparsable sources,
which `buildRegex` never produces, yield no matches). -/
def regexExecAll (r : JsRegex) (text : Str) : List (Nat × Nat) :=
  match parseTokens r.source with
  | some toks => jsExecAll r.ignoreCase toks text
  | none => []

/-- A single match attempt for a compiled `JsRegex` at a fixed position. -/
def regexMatchAt (r : JsRegex) (doc : Str) (i : Nat) : Option Nat :=
  match parseTokens r.source with
  | some toks => toksMatchAt r.ignoreCase toks doc i
  | none => none

/-- Reference scanner: walk positions one by one, emit each match and jump
to its end.  Equivalent to `execLoopS` for consuming patterns. -/
def scanFrom (ic : Bool) (toks : List RTok) (text : Str) (i : Nat) : List (Nat × Nat) :=
  if h : i ≤ text.length then
    match toksMatchAt ic toks text i with
    | some e => if h2 : i < e then (i, e) :: scanFrom ic toks text e else []
    | none => scanFrom ic toks text (i + 1)
  else []
termination_by text.length + 1 - i
decreasing_by all_goals omega

/-! ## Window scanning (Range Scanner)

`searchVisibleRanges` / `collectVisibleMatches` scan each visible range with
the same regex object.  `scanWindowsShared` is the faithful model of
`searchVisibleRanges` in `src/highlighter.ts`: one regex, its `lastIndex`
threaded across the windows; window-relative offsets are converted to
absolute ones by adding the window start. -/

/-- Convert a window-relative match to an absolute span
(`start = from + m.index`, `end = start + m[0].length`). -/
def absSpan (w : Nat × Nat) (m : Nat × Nat) : Nat × Nat :=
  (w.1 + m.1, w.1 + m.1 + (m.2 - m.1))

/-- The slice `state.doc.sliceString(a, b)`: characters `[a, b)`. -/
def sliceString (doc : Str) (a b : Nat) : Str :=
  (doc.drop a).take (b - a)

/-- One window of the shared scan: run the exec loop on the window's text
starting from the carried `lastIndex`, append the absolute spans, and carry
the loop's final `lastIndex` to the next window. -/
def sharedStep (ic : Bool) (toks : List RTok) (doc : Str)
    (acc : List (Nat × Nat) × Nat) (w : Nat × Nat) : List (Nat × Nat) × Nat :=
  (acc.1 ++ (execLoopS ic toks (sliceString doc w.1 w.2) acc.2).1.map (absSpan w),
    (execLoopS ic toks (sliceString doc w.1 w.2) acc.2).2)

/-- Scan every window with one shared stateful global matcher, threading the
matcher's `lastIndex` from window to window (`searchVisibleRanges`). -/
def scanWindowsShared (ic : Bool) (toks : List RTok) (doc : Str)
    (ws : List (Nat × Nat)) : List (Nat × Nat) :=
  (ws.foldl (sharedStep ic toks doc) (([] : List (Nat × Nat)), 0)).1

/-- Scan each window independently with a fresh matcher (`lastIndex = 0`). -/
def scanWindowsFresh (ic : Bool) (toks : List RTok) (doc : Str)
    (ws : List (Nat × Nat)) : List (Nat × Nat) :=
  ws.flatMap (fun w => (jsExecAll ic toks (sliceString doc w.1 w.2)).map (absSpan w))

/-! ## Permanent-Mark Command Engine

The four commands of `src/highlighter.ts`.  The host editor context is
modelled as the document text plus the raw selected text; `none` models "no
active MarkdownView".  A command either aborts with a `Notice` message and
no edit, or produces the edited document (the batch edit applied
rightmost-first, exactly as the code does via `matches.reverse()`). -/

/-- JavaScript `String.prototype.trim`. -/
def trim (l : Str) : Str :=
  ((l.dropWhile Char.isWhitespace).reverse.dropWhile Char.isWhitespace).reverse

structure Ctx where
  doc : Str
  selection : Str

inductive CmdResult where
  | aborted (notice : String)
  | edited (newDoc : Str) (count : Nat)
deriving DecidableEq

/-- The document after a command: an aborted command leaves it unchanged. -/
def resultDoc (r : CmdResult) (orig : Str) : Str :=
  match r with
  | CmdResult.aborted _ => orig
  | CmdResult.edited d _ => d

/-- One text edit: replace characters `[f, t)` of the current document by
`ins`. -/
def applyOne (d : Str) (f t : Nat) (ins : Str) : Str :=
  d.take f ++ ins ++ d.drop t

/-- The replacement `==<matched text>==` computed from the original doc. -/
def wrapInsert (doc : Str) (m : Nat × Nat) : Str :=
  '=' :: '=' :: ((doc.drop m.1).take (m.2 - m.1) ++ ['=', '='])

/-- `setPermanentHighlightOccurrences`: wrap every document-wide occurrence
of the trimmed selection in `==`, rightmost match first. -/
def setPermanentHighlightOccurrences (ctx : Option Ctx) : CmdResult :=
  match ctx with
  | none => CmdResult.aborted "No active editor"
  | some c =>
    let sel := trim c.selection
    if sel.isEmpty || sel.any Char.isWhitespace then
      CmdResult.aborted "Select some text first."
    else
      let doc := c.doc
      let ms := regexExecAll (buildRegex sel true false) doc
      if ms.isEmpty then CmdResult.aborted "No occurrences found."
      else
        CmdResult.edited
          (ms.reverse.foldl (fun d m => applyOne d m.1 m.2 (wrapInsert doc m)) doc)
          ms.length

/-- The replacement for unwrap: `doc.slice(from + 2, to - 2)` computed from
the original doc. -/
def unwrapInsert (doc : Str) (m : Nat × Nat) : Str :=
  (doc.drop (m.1 + 2)).take (m.2 - 2 - (m.1 + 2))

/-- `removePermanentHighlightOccurrences`: find occurrences of
`==<selection>==` and strip the `==` pair, rightmost match first. -/
def removePermanentHighlightOccurrences (ctx : Option Ctx) : CmdResult :=
  match ctx with
  | none => CmdResult.aborted "No active editor"
  | some c =>
    let sel := trim c.selection
    if sel.isEmpty || sel.any Char.isWhitespace then
      CmdResult.aborted "Select text to un-highlight."
    else
      let doc := c.doc
      let ms := regexExecAll (buildRegex (('=' :: '=' :: sel) ++ ['=', '=']) true false) doc
      if ms.isEmpty then CmdResult.aborted "No highlighted occurrences found."
      else
        CmdResult.edited
          (ms.reverse.foldl (fun d m => applyOne d m.1 m.2 (unwrapInsert doc m)) doc)
          ms.length

/-- `createTagForOccurrences`: prefix every whole-word occurrence of the
trimmed selection with `#`, rightmost match first; the replaced word is read
from the current document (`editor.getRange`). -/
def createTagForOccurrences (ctx : Option Ctx) : CmdResult :=
  match ctx with
  | none => CmdResult.aborted "No active editor"
  | some c =>
    let sel := trim c.selection
    if sel.isEmpty || sel.any Char.isWhitespace then
      CmdResult.aborted "Select one word to tag."
    else
      let doc := c.doc
      let ms := regexExecAll (buildRegex sel true true) doc
      if ms.isEmpty then CmdResult.aborted "No occurrences found."
      else
        CmdResult.edited
          (ms.reverse.foldl
            (fun d m => applyOne d m.1 m.2 ('#' :: (d.drop m.1).take (m.2 - m.1))) doc)
          ms.length

/-- `text.replace(/^#+/, '')`: strip the maximal leading run of `#`. -/
def stripLeadingHashes (l : Str) : Str :=
  l.dropWhile (fun c => c == '#')

/-- `removeTagFromOccurrences`: find occurrences of `#<selection>` and strip
the leading `#` run of each matched text, rightmost match first; the matched
text is read from the current document. -/
def removeTagFromOccurrences (ctx : Option Ctx) : CmdResult :=
  match ctx with
  | none => CmdResult.aborted "No active editor"
  | some c =>
    let sel := trim c.selection
    if sel.isEmpty || sel.any Char.isWhitespace then
      CmdResult.aborted "Select the tagged word."
    else
      let doc := c.doc
      let ms := regexExecAll (buildRegex ('#' :: sel) true false) doc
      if ms.isEmpty then CmdResult.aborted "No tagged occurrences found."
      else
        CmdResult.edited
          (ms.reverse.foldl
            (fun d m => applyOne d m.1 m.2 (stripLeadingHashes ((d.drop m.1).take (m.2 - m.1)))) doc)
          ms.length

/-! ## Match Aggregator (live decorations, `part_004` revision)

`buildDecorations` collects spans from the selection source and from every
enabled keyword group (in declaration order, words in order), deduplicates
exact `(start, end)` spans via the `addedSpans` set (first writer wins),
then sorts by `(from, startSide, to)` and feeds the builder.  Decorations
are identified by their CSS class: the selection decoration or a per-group
decoration keyed by the group id.  `Decoration.mark` specs carry no
`startSide`, so `(deco as any)?.spec?.startSide ?? 0` is always `0`. -/

inductive Deco where
  | selection
  | group (id : String)
deriving DecidableEq

structure RawSpan where
  spanFrom : Nat
  spanTo : Nat
  deco : Deco
  startSide : Int
deriving DecidableEq

structure KeywordGroup where
  id : String
  name : String
  color : String
  keywords : List Str
  enabled : Bool
  caseSensitive : Bool

structure Settings where
  occuraPluginEnabled : Bool
  autoKeywordsHighlightEnabled : Bool
  occuraCaseSensitive : Bool
  keywordsCaseSensitive : Bool
  keywordGroups : List KeywordGroup

def spanKey (sp : RawSpan) : Nat × Nat :=
  (sp.spanFrom, sp.spanTo)

/-- The body of the match loop in `collectVisibleMatches`: skip a span whose
exact `(start, end)` is already in `addedSpans`, otherwise push it and
record its key. -/
def dedupStep (acc : List RawSpan × List (Nat × Nat)) (sp : RawSpan) :
    List RawSpan × List (Nat × Nat) :=
  if spanKey sp ∈ acc.2 then acc else (acc.1 ++ [sp], acc.2 ++ [spanKey sp])

def dedupFold (l : List RawSpan) (acc : List RawSpan × List (Nat × Nat)) :
    List RawSpan × List (Nat × Nat) :=
  l.foldl dedupStep acc

/-- The spans one regex contributes on one visible range (before
deduplication): `re.lastIndex = 0` is set before the window's exec loop, so
the scan is fresh, and offsets are made absolute. -/
def rangeSpans (r : JsRegex) (deco : Deco) (ss : Int) (doc : Str) (w : Nat × Nat) :
    List RawSpan :=
  (regexExecAll r (sliceString doc w.1 w.2)).map
    (fun m => RawSpan.mk (absSpan w m).1 (absSpan w m).2 deco ss)

/-- One visible range of `collectVisibleMatches`. -/
def rangeStep (r : JsRegex) (deco : Deco) (doc : Str)
    (a : List RawSpan × List (Nat × Nat)) (w : Nat × Nat) :
    List RawSpan × List (Nat × Nat) :=
  dedupFold (rangeSpans r deco 0 doc w) a

/-- `collectVisibleMatches`: fold the deduplicating push over every visible
range's matches. -/
def collectVisibleMatches (r : JsRegex) (deco : Deco) (doc : Str)
    (ranges : List (Nat × Nat)) (acc : List RawSpan × List (Nat × Nat)) :
    List RawSpan × List (Nat × Nat) :=
  ranges.foldl (rangeStep r deco doc) acc

/-- `group.keywords.map(w => w.trim()).filter(Boolean)`. -/
def trimFilterWords (ws : List Str) : List Str :=
  (ws.map trim).filter (fun w => !w.isEmpty)

/-- The sort comparator `(a.from - b.from) || (a.startSide - b.startSide) ||
(a.to - b.to)`, as a total preorder. -/
def spanLE (a b : RawSpan) : Prop :=
  a.spanFrom < b.spanFrom ∨
    (a.spanFrom = b.spanFrom ∧
      (a.startSide < b.startSide ∨
        (a.startSide = b.startSide ∧ a.spanTo ≤ b.spanTo)))

instance : DecidableRel spanLE := by
  intro a b
  unfold spanLE
  infer_instance

/-- `matches.sort(comparator)`.  The comparator returns `0` only on spans
with identical `(from, startSide, to)`, and deduplication guarantees all
keys are distinct, so any sorting algorithm realising the comparator yields
the same list; we model the sort with insertion sort. -/
def sortSpans (l : List RawSpan) : List RawSpan :=
  l.insertionSort spanLE

/-- Collect one keyword's spans (inner loop of the keyword-group pass). -/
def wordStep (doc : Str) (ranges : List (Nat × Nat)) (gcase : Bool) (gid : String)
    (a : List RawSpan × List (Nat × Nat)) (w : Str) : List RawSpan × List (Nat × Nat) :=
  collectVisibleMatches (buildRegex w gcase true) (Deco.group gid) doc ranges a

/-- Collect one keyword group's spans: skipped when disabled; blank words
are trimmed away first (an empty word list is a no-op, like `continue`). -/
def groupStep (doc : Str) (ranges : List (Nat × Nat))
    (a : List RawSpan × List (Nat × Nat)) (g : KeywordGroup) : List RawSpan × List (Nat × Nat) :=
  if g.enabled then
    (trimFilterWords g.keywords).foldl (wordStep doc ranges g.caseSensitive g.id) a
  else a

/-- The selection pass of `buildDecorations`: when the plugin is enabled
and the main selection is nonempty, trimmed and whitespace-free, collect its
occurrences with the selection decoration. -/
def selectionPass (st : Settings) (doc : Str) (selFrom selTo : Nat)
    (ranges : List (Nat × Nat)) (acc : List RawSpan × List (Nat × Nat)) :
    List RawSpan × List (Nat × Nat) :=
  if st.occuraPluginEnabled then
    if selFrom != selTo then
      let txt := trim (sliceString doc selFrom selTo)
      if !txt.isEmpty && !txt.any Char.isWhitespace then
        collectVisibleMatches (buildRegex txt st.occuraCaseSensitive false)
          Deco.selection doc ranges acc
      else acc
    else acc
  else acc

/-- The keyword pass of `buildDecorations`: every enabled group, in
declaration order. -/
def keywordPass (st : Settings) (doc : Str) (ranges : List (Nat × Nat))
    (acc : List RawSpan × List (Nat × Nat)) : List RawSpan × List (Nat × Nat) :=
  if st.occuraPluginEnabled && st.autoKeywordsHighlightEnabled then
    st.keywordGroups.foldl (groupStep doc ranges) acc
  else acc

/-- `buildDecorations` of the `part_004` revision, as a function of the
settings snapshot, document, main selection offsets and visible ranges:
the selection pass, then the keyword pass (both deduplicating through the
shared `addedSpans` set), then the `(from, startSide, to)` sort.
(The status-bar side channel is not part of the decoration result.) -/
def buildDecorations (st : Settings) (doc : Str) (selFrom selTo : Nat)
    (ranges : List (Nat × Nat)) : List RawSpan :=
  sortSpans (keywordPass st doc ranges
    (selectionPass st doc selFrom selTo ranges ([], []))).1

/-! Reference (per-source) span lists, in the aggregator's processing order:
selection first, then enabled groups in declaration order, then words in
order.  `buildDecorations` is the sort of the first-wins deduplication of
their concatenation. -/

/-- The spans the selection source produces from a raw selected text: trim
it, reject empty or whitespace-containing text, otherwise scan the visible
ranges for the trimmed pattern. -/
def selectionSpansOfText (st : Settings) (doc : Str) (txtRaw : Str)
    (ranges : List (Nat × Nat)) : List RawSpan :=
  let txt := trim txtRaw
  if !txt.isEmpty && !txt.any Char.isWhitespace then
    ranges.flatMap
      (rangeSpans (buildRegex txt st.occuraCaseSensitive false) Deco.selection 0 doc)
  else []

/-- All spans the selection source produces (guards included), without
deduplication. -/
def selectionSpans (st : Settings) (doc : Str) (selFrom selTo : Nat)
    (ranges : List (Nat × Nat)) : List RawSpan :=
  if st.occuraPluginEnabled then
    if selFrom != selTo then
      selectionSpansOfText st doc (sliceString doc selFrom selTo) ranges
    else []
  else []

/-- All spans one keyword group produces, without deduplication. -/
def groupSpans (doc : Str) (ranges : List (Nat × Nat)) (g : KeywordGroup) :
    List RawSpan :=
  if g.enabled then
    (trimFilterWords g.keywords).flatMap
      (fun w => ranges.flatMap
        (rangeSpans (buildRegex w g.caseSensitive true) (Deco.group g.id) 0 doc))
  else []

/-- All spans the keyword sources produce, groups in declaration order. -/
def keywordSpans (st : Settings) (doc : Str) (ranges : List (Nat × Nat)) :
    List RawSpan :=
  if st.occuraPluginEnabled && st.autoKeywordsHighlightEnabled then
    st.keywordGroups.flatMap (groupSpans doc ranges)
  else []

/-- Every produced span, sources in precedence (processing) order. -/
def allProducedSpans (st : Settings) (doc : Str) (selFrom selTo : Nat)
    (ranges : List (Nat × Nat)) : List RawSpan :=
  selectionSpans st doc selFrom selTo ranges ++ keywordSpans st doc ranges

/-! ## Change Detector

The `update` method of the view plugin: recompute on `selectionSet`,
`docChanged`, `viewportChanged`, or when one of the two retained flags
(`occuraPluginEnabled`, `autoKeywordsHighlightEnabled`) differs from its
last-seen value; otherwise keep the stored decorations. -/

structure UpdateEvent where
  selectionSet : Bool
  docChanged : Bool
  viewportChanged : Bool

structure PluginViewState where
  lastEnabled : Bool
  lastAutoHL : Bool
  decorations : List RawSpan
deriving DecidableEq

/-- The `update(u)` method, as a transition on the view-plugin state. -/
def updateModel (u : UpdateEvent) (st : Settings) (doc : Str)
    (selFrom selTo : Nat) (ranges : List (Nat × Nat)) (ps : PluginViewState) :
    PluginViewState :=
  if u.selectionSet || u.docChanged || u.viewportChanged ||
      (st.occuraPluginEnabled != ps.lastEnabled) ||
      (st.autoKeywordsHighlightEnabled != ps.lastAutoHL) then
    PluginViewState.mk st.occuraPluginEnabled st.autoKeywordsHighlightEnabled
      (buildDecorations st doc selFrom selTo ranges)
  else ps

/-- The state right after a (re)computation under settings `st`. -/
def recomputedState (st : Settings) (doc : Str) (selFrom selTo : Nat)
    (ranges : List (Nat × Nat)) : PluginViewState :=
  PluginViewState.mk st.occuraPluginEnabled st.autoKeywordsHighlightEnabled
    (buildDecorations st doc selFrom selTo ranges)

/-! ## Reference forms of the batch edit

`spliceAbs doc g i M` rewrites the matches `M` (absolute, ascending,
disjoint, all at positions `≥ i`) of the original document simultaneously at
their original offsets, replacing each matched slice `x` by `g x`.
`rewriteFrom` / `greedyRewriteW` are equivalent recursive greedy forms used
to reason about wrap/unwrap and tag/untag round trips. -/

def spliceAbs (doc : Str) (g : Str → Str) : Nat → List (Nat × Nat) → Str
  | i, [] => doc.drop i
  | i, m :: rest =>
    (doc.drop i).take (m.1 - i) ++ g ((doc.drop m.1).take (m.2 - m.1)) ++
      spliceAbs doc g m.2 rest

/-- Greedy rewrite driven by the token matcher, position-indexed on the full
document (so that boundary assertions see their context). -/
def rewriteFrom (ic : Bool) (toks : List RTok) (g : Str → Str) (doc : Str) (i : Nat) : Str :=
  if h : i < doc.length then
    match toksMatchAt ic toks doc i with
    | some e =>
      if h2 : i < e then g ((doc.drop i).take (e - i)) ++ rewriteFrom ic toks g doc e
      else doc.get ⟨i, h⟩ :: rewriteFrom ic toks g doc (i + 1)
    | none => doc.get ⟨i, h⟩ :: rewriteFrom ic toks g doc (i + 1)
  else []
termination_by doc.length - i
decreasing_by all_goals omega

/-- Does the remaining text start with a non-word character (or is empty)?
This is the trailing `\b` test for a pattern of word characters. -/
def tailBoundaryOk : Str → Bool
  | [] => true
  | c :: _ => !isWordChar c

/-- Word-character status of the last character of `p` (used as the
"previous character" state after consuming a match of `p`). -/
def lastCharW (p : Str) (pw : Bool) : Bool :=
  match p.getLast? with
  | some c => isWordChar c
  | none => pw

/-- Structural greedy rewrite of every (optionally whole-word) occurrence of
the literal `p`, carrying the word-character status `pw` of the previously
consumed character. -/
def greedyRewriteW (p : Str) (g : Str → Str) (needB : Bool) : Bool → Str → Str
  | _, [] => []
  | pw, c :: rest =>
    if h : p ≠ [] ∧ (c :: rest).take p.length = p ∧
        (needB = true → pw = false ∧ tailBoundaryOk ((c :: rest).drop p.length) = true) then
      g p ++ greedyRewriteW p g needB (lastCharW p pw) ((c :: rest).drop p.length)
    else
      c :: greedyRewriteW p g needB (isWordChar c) rest
termination_by _ l => l.length
decreasing_by
  · have hp : p.length ≠ 0 := by
      intro h0
      exact h.1 (List.length_eq_zero.mp h0)
    simp [List.length_drop]
    omega
  · simp

/-! ## Reference definitions used by the aggregation proofs -/

/-- First-wins deduplication by exact `(start, end)` key, with the set of
already-seen keys as an explicit argument. -/
def dedupRec : List RawSpan → List (Nat × Nat) → List RawSpan
  | [], _ => []
  | sp :: rest, seen =>
    if spanKey sp ∈ seen then dedupRec rest seen
    else sp :: dedupRec rest (seen ++ [spanKey sp])

/-- Strict `(start, end)` lexicographic order on spans. -/
def spanKeyLT (a b : RawSpan) : Prop :=
  a.spanFrom < b.spanFrom ∨ (a.spanFrom = b.spanFrom ∧ a.spanTo < b.spanTo)

instance : DecidableRel spanKeyLT := by
  intro a b
  unfold spanKeyLT
  infer_instance

/-- Source precedence as the spec describes it: the selection class first,
then keyword groups in declaration order. -/
def precIndex (st : Settings) : Deco → Nat
  | Deco.selection => 0
  | Deco.group gid => 1 + st.keywordGroups.findIdx (fun g => g.id = gid)

/-- The ordering claimed by the spec for the final decoration sequence:
ascending start, ties broken by source precedence, then by end. -/
def specClaimedLE (st : Settings) (a b : RawSpan) : Prop :=
  a.spanFrom < b.spanFrom ∨
    (a.spanFrom = b.spanFrom ∧
      (precIndex st a.deco < precIndex st b.deco ∨
        (precIndex st a.deco = precIndex st b.deco ∧ a.spanTo ≤ b.spanTo)))

instance (st : Settings) : DecidableRel (specClaimedLE st) := by
  intro a b
  unfold specClaimedLE
  infer_instance

/-- A one-group configuration on which the claimed tie-break order fails:
document `"ab,"`, whole document selected (pattern `"ab,"`), one enabled
case-sensitive keyword group containing `"ab"`. -/
def groupEx3 : KeywordGroup :=
  KeywordGroup.mk "g1" "G1" "#ff0000" [['a', 'b']] true true

def settingsEx3 : Settings :=
  Settings.mk true true true false [groupEx3]

def docEx3 : Str := ['a', 'b', ',']

instance : IsTotal RawSpan spanLE :=
  ⟨by
    intro a b
    unfold spanLE
    omega⟩

instance : IsTrans RawSpan spanLE :=
  ⟨by
    intro a b c
    unfold spanLE
    omega⟩

/-- Configuration for the C4 witness: selection highlighting on (pattern
`"cat"` selected) plus one enabled group also containing `"cat"`. -/
def settingsEx4 : Settings :=
  Settings.mk true true true false
    [KeywordGroup.mk "g1" "G1" "#00ff00" [['c', 'a', 't']] true true]

/-- Replace only the selection case-sensitivity flag of a configuration. -/
def withCaseSensitivity (st : Settings) (b : Bool) : Settings :=
  Settings.mk st.occuraPluginEnabled st.autoKeywordsHighlightEnabled b
    st.keywordsCaseSensitive st.keywordGroups

/-- Configurations for the C8 counterexample: identical except for the
selection case-sensitivity flag. -/
def settingsEx8a : Settings := Settings.mk true false true false []

def settingsEx8b : Settings := Settings.mk true false false false []

/-- Document `"A a"` for the C8 counterexample: selecting the `A` yields
one occurrence case-sensitively but two occurrences case-insensitively. -/
def docEx8 : Str := ['A', ' ', 'a']

/-- Literal tokens of an escaped string. -/
def litToks (s : Str) : List RTok := s.map RTok.lit

/-- The token list `buildRegex` compiles a literal `p` to: plain literals,
or `\b`-wrapped literals when whole-word treatment applies. -/
def buildToks (p : Str) (needB : Bool) : List RTok :=
  if needB then RTok.wordB :: (litToks p ++ [RTok.wordB]) else litToks p

/-- Word-character status of the character before position `i` (start of
text counts as non-word), the state `greedyRewriteW` threads. -/
def prevWAt (doc : Str) (i : Nat) : Bool :=
  if i == 0 then false else wordAt doc (i - 1)

/-- A batch of matches is applicable: ascending, pairwise disjoint, within
the document, and starting no earlier than `lo`. -/
def EditsOK (doc : Str) : Nat → List (Nat × Nat) → Prop
  | _, [] => True
  | lo, m :: rest => lo ≤ m.1 ∧ m.1 ≤ m.2 ∧ m.2 ≤ doc.length ∧ EditsOK doc m.2 rest

/-- The wrap replacement `==s==`. -/
def wrapMark (s : Str) : Str := '=' :: '=' :: (s ++ ['=', '='])

/-- The unwrap replacement: strip two characters from each end of the
matched text. -/
def unwrapMark (s : Str) : Str := (s.drop 2).take (s.length - 4)

/-- The tag replacement `#s`. -/
def tagMark (s : Str) : Str := '#' :: s

/-! ## Lemmas: parsing and literal matching -/

/-- Stepwise literal matching at a position. -/
def matchesAt (ic : Bool) : Str → Str → Nat → Bool
  | [], _, _ => true
  | p :: ps, doc, i =>
    match doc[i]? with
    | some c => charMatches ic p c && matchesAt ic ps doc (i + 1)
    | none => false

/-- ASCII-style case folding of a string when the ignore-case flag is set. -/
def foldCase (ic : Bool) (l : Str) : Str :=
  if ic then l.map Char.toLower else l

/-- The literal string `s` occurs at position `i` of `doc`, up to the
case-sensitivity flag `cs`. -/
def occursAt (cs : Bool) (s doc : Str) (i : Nat) : Prop :=
  foldCase (!cs) ((doc.drop i).take s.length) = foldCase (!cs) s

instance (cs : Bool) (s doc : Str) (i : Nat) : Decidable (occursAt cs s doc i) := by
  unfold occursAt
  infer_instance

theorem parseTokens_backslash (c2 : Char) (rest : Str) :
    parseTokens ('\\' :: c2 :: rest) =
      if c2 = 'b' then (parseTokens rest).map (fun ts => RTok.wordB :: ts)
      else if isRegexMeta c2 then (parseTokens rest).map (fun ts => RTok.lit c2 :: ts)
      else none := by
  rw [parseTokens.eq_def]
  simp

theorem parseTokens_plain (c : Char) (rest : Str) (h : c ≠ '\\') :
    parseTokens (c :: rest) =
      if isRegexMeta c then none
      else (parseTokens rest).map (fun ts => RTok.lit c :: ts) := by
  rw [parseTokens.eq_def]
  simp [h]

theorem parse_escape_append (s r : Str) :
    parseTokens (escapeRegex s ++ r) = (parseTokens r).map (fun ts => litToks s ++ ts) := by
  induction s with
  | nil =>
    simp only [escapeRegex, List.flatMap_nil, List.nil_append, litToks, List.map_nil]
    cases parseTokens r <;> simp
  | cons c s ih =>
    by_cases hm : isRegexMeta c
    · have hcb : c ≠ 'b' := by
        intro hc
        rw [hc] at hm
        exact absurd hm (by decide)
      have hesc : escapeRegex (c :: s) = '\\' :: c :: escapeRegex s := by
        simp [escapeRegex, hm]
      rw [hesc, List.cons_append, List.cons_append, parseTokens_backslash,
        if_neg hcb, if_pos hm, ih]
      simp only [litToks, List.map_cons]
      cases parseTokens r <;> simp
    · have hcbs : c ≠ '\\' := by
        intro hc
        rw [hc] at hm
        exact absurd (by decide : isRegexMeta '\\' = true) hm
      have hesc : escapeRegex (c :: s) = c :: escapeRegex s := by
        simp [escapeRegex, hm]
      rw [hesc, List.cons_append, parseTokens_plain c _ hcbs, if_neg hm, ih]
      simp only [litToks, List.map_cons]
      cases parseTokens r <;> simp

theorem parse_escape (s : Str) : parseTokens (escapeRegex s) = some (litToks s) := by
  have h := parse_escape_append s []
  simpa [parseTokens] using h

theorem countLits_litToks (s : Str) : countLits (litToks s) = s.length := by
  induction s with
  | nil => rfl
  | cons c s ih => simp [litToks, countLits] at ih ⊢; omega

theorem toksMatchAt_lits (ic : Bool) (s doc : Str) (i : Nat) :
    toksMatchAt ic (litToks s) doc i =
      if matchesAt ic s doc i then some (i + s.length) else none := by
  induction s generalizing i with
  | nil => simp [litToks, toksMatchAt, matchesAt]
  | cons p ps ih =>
    cases hdoc : doc[i]? with
    | none => simp [litToks, toksMatchAt, matchesAt, hdoc]
    | some c =>
      by_cases hc : charMatches ic p c
      · have harith : i + 1 + ps.length = i + (ps.length + 1) := by omega
        simp only [litToks, List.map_cons] at ih ⊢
        simp [toksMatchAt, matchesAt, hdoc, hc, ih (i + 1), harith]
      · simp [litToks, toksMatchAt, matchesAt, hdoc, hc]

theorem matchesAt_iff_foldCase (ic : Bool) (s doc : Str) (i : Nat) :
    matchesAt ic s doc i = true ↔
      foldCase ic ((doc.drop i).take s.length) = foldCase ic s := by
  induction s generalizing i with
  | nil => cases ic <;> simp [matchesAt, foldCase]
  | cons p ps ih =>
    cases hdoc : doc[i]? with
    | none =>
      have hlen : doc.length ≤ i := by rwa [List.getElem?_eq_none_iff] at hdoc
      have hdrop : doc.drop i = [] := List.drop_eq_nil_of_le hlen
      simp only [matchesAt, hdoc, hdrop, List.take_nil]
      cases ic <;> simp [foldCase]
    | some c =>
      obtain ⟨hlt, hci⟩ := List.getElem?_eq_some_iff.mp hdoc
      have hdrop : doc.drop i = c :: doc.drop (i + 1) := by
        rw [List.drop_eq_getElem_cons hlt, hci]
      have hstep : matchesAt ic (p :: ps) doc i =
          (charMatches ic p c && matchesAt ic ps doc (i + 1)) := by
        simp [matchesAt, hdoc]
      rw [List.length_cons, hdrop, List.take_succ_cons, hstep]
      have ihu := ih (i + 1)
      cases ic with
      | false =>
        simp only [foldCase, Bool.false_eq_true, if_false, charMatches] at ihu ⊢
        rw [Bool.and_eq_true, beq_iff_eq, List.cons_eq_cons, ihu]
        constructor
        · rintro ⟨h1, h2⟩
          exact ⟨h1.symm, h2⟩
        · rintro ⟨h1, h2⟩
          exact ⟨h1.symm, h2⟩
      | true =>
        simp only [foldCase, if_true, charMatches, List.map_cons] at ihu ⊢
        rw [Bool.and_eq_true, beq_iff_eq, List.cons_eq_cons, ihu]
        constructor
        · rintro ⟨h1, h2⟩
          exact ⟨h1.symm, h2⟩
        · rintro ⟨h1, h2⟩
          exact ⟨h1.symm, h2⟩

theorem parse_buildRegex_noWW (s : Str) (cs : Bool) :
    parseTokens (buildRegex s cs false).source = some (litToks s) := by
  simp [buildRegex, parse_escape]

theorem buildRegex_ignoreCase (s : Str) (cs ww : Bool) :
    (buildRegex s cs ww).ignoreCase = !cs := by
  simp [buildRegex]
  split <;> rfl

theorem parse_buildRegex_WW_word (s : Str) (cs : Bool) (hne : s ≠ [])
    (hw : s.all isWordChar = true) :
    parseTokens (buildRegex s cs true).source =
      some (RTok.wordB :: (litToks s ++ [RTok.wordB])) := by
  have hem : s.isEmpty = false := by
    cases s with
    | nil => exact absurd rfl hne
    | cons a l => rfl
  have hsrc : (buildRegex s cs true).source =
      '\\' :: 'b' :: (escapeRegex s ++ ['\\', 'b']) := by
    simp [buildRegex, hem, hw]
  rw [hsrc, parseTokens_backslash, if_pos rfl, parse_escape_append]
  have : parseTokens ['\\', 'b'] = some [RTok.wordB] := by decide
  rw [this]
  rfl

theorem buildRegex_WW_nonword (s : Str) (cs : Bool) (hw : s.all isWordChar = false) :
    buildRegex s cs true = buildRegex s cs false := by
  simp [buildRegex, hw]

theorem toksMatchAt_append (ic : Bool) (t1 t2 : List RTok) (doc : Str) (i : Nat) :
    toksMatchAt ic (t1 ++ t2) doc i =
      (toksMatchAt ic t1 doc i).bind (fun j => toksMatchAt ic t2 doc j) := by
  induction t1 generalizing i with
  | nil => simp [toksMatchAt]
  | cons t ts ih =>
    cases t with
    | wordB =>
      by_cases hb : boundaryAt doc i = true
      · simp [toksMatchAt, hb, ih]
      · simp [toksMatchAt, hb]
    | lit p =>
      cases hdoc : doc[i]? with
      | none => simp [toksMatchAt, hdoc]
      | some c =>
        by_cases hc : charMatches ic p c = true
        · simp [toksMatchAt, hdoc, hc, ih]
        · simp [toksMatchAt, hdoc, hc]

theorem occursAt_iff_matchesAt (cs : Bool) (s doc : Str) (i : Nat) :
    occursAt cs s doc i ↔ matchesAt (!cs) s doc i = true := by
  rw [occursAt, matchesAt_iff_foldCase]

theorem regexMatchAt_eq (r : JsRegex) (doc : Str) (i : Nat) (toks : List RTok)
    (h : parseTokens r.source = some toks) :
    regexMatchAt r doc i = toksMatchAt r.ignoreCase toks doc i := by
  rw [regexMatchAt, h]

/-- The matcher built with `wholeWord = false` matches exactly the literal
occurrences (up to case sensitivity). -/
theorem regexMatchAt_noWW_spec (s doc : Str) (cs : Bool) (i : Nat) :
    regexMatchAt (buildRegex s cs false) doc i =
      if occursAt cs s doc i then some (i + s.length) else none := by
  rw [regexMatchAt_eq _ _ _ _ (parse_buildRegex_noWW s cs), buildRegex_ignoreCase,
    toksMatchAt_lits]
  by_cases h : occursAt cs s doc i
  · rw [if_pos ((occursAt_iff_matchesAt cs s doc i).mp h), if_pos h]
  · rw [if_neg, if_neg h]
    intro hm
    exact h ((occursAt_iff_matchesAt cs s doc i).mpr hm)

/-- The matcher built with `wholeWord = true` from a pure word matches
exactly the literal occurrences flanked by word boundaries. -/
theorem regexMatchAt_WW_spec (s doc : Str) (cs : Bool) (i : Nat) (hne : s ≠ [])
    (hw : s.all isWordChar = true) :
    regexMatchAt (buildRegex s cs true) doc i =
      if occursAt cs s doc i ∧ boundaryAt doc i = true ∧ boundaryAt doc (i + s.length) = true
      then some (i + s.length) else none := by
  rw [regexMatchAt_eq _ _ _ _ (parse_buildRegex_WW_word s cs hne hw), buildRegex_ignoreCase]
  by_cases hb1 : boundaryAt doc i = true
  · by_cases hm : matchesAt (!cs) s doc i = true
    · by_cases hb2 : boundaryAt doc (i + s.length) = true
      · rw [if_pos ⟨(occursAt_iff_matchesAt cs s doc i).mpr hm, hb1, hb2⟩]
        simp [toksMatchAt, hb1, toksMatchAt_append, toksMatchAt_lits, hm, hb2]
      · rw [if_neg (by
          rintro ⟨_, _, h2⟩
          exact hb2 h2)]
        simp [toksMatchAt, hb1, toksMatchAt_append, toksMatchAt_lits, hm, hb2]
    · rw [if_neg (by
        rintro ⟨h1, _, _⟩
        exact hm ((occursAt_iff_matchesAt cs s doc i).mp h1))]
      simp [toksMatchAt, hb1, toksMatchAt_append, toksMatchAt_lits, hm]
  · rw [if_neg (by
      rintro ⟨_, h1, _⟩
      exact hb1 h1)]
    simp [toksMatchAt, hb1]

/-- Claim C1: for every nonempty whitespace-free string `s`, the matcher
built by the Pattern Builder (`escapeRegex` / `buildRegex`) matches a
position of a document iff the literal substring `s` occurs at that
position (up to the case-sensitivity flag): every regex metacharacter of
`s` is escaped, so `s` matches exactly its literal occurrences and nothing
else. -/
theorem C1_literal_escaping (s doc : Str) (cs : Bool) (i : Nat)
    (hne : s ≠ []) (hws : ∀ c ∈ s, c.isWhitespace = false) :
    regexMatchAt (buildRegex s cs false) doc i =
      if occursAt cs s doc i then some (i + s.length) else none :=
  regexMatchAt_noWW_spec s doc cs i

/-- Witness for C1 at `s = "a."`, `doc = "xa.ab"`: the metacharacter `.`
matches only a literal dot (position 1 matches, position 3 does not). -/
theorem C1_literal_escaping_witness :
    regexMatchAt (buildRegex ['a', '.'] true false) ['x', 'a', '.', 'a', 'b'] 1 = some 3 ∧
    regexMatchAt (buildRegex ['a', '.'] true false) ['x', 'a', '.', 'a', 'b'] 3 = none := by
  constructor
  · rw [C1_literal_escaping ['a', '.'] ['x', 'a', '.', 'a', 'b'] true 1 (by decide) (by decide)]
    decide
  · rw [C1_literal_escaping ['a', '.'] ['x', 'a', '.', 'a', 'b'] true 3 (by decide) (by decide)]
    decide

/-- Claim C2: the Pattern Builder adds whole-word boundaries iff
`wholeWord` is requested and the (nonempty, per the builder's documented
precondition) text consists solely of word characters: for such a word the
`wholeWord = true` matcher matches exactly the boundary-flanked literal
occurrences (hence never a partial-word substring), the
`wholeWord = false` matcher matches every literal occurrence, and for
mixed or punctuation-containing text no boundary is added — the built
regex is identical to the plain substring one. -/
theorem C2_whole_word_policy (s doc : Str) (cs : Bool) (i : Nat) (hne : s ≠ []) :
    (s.all isWordChar = true →
      regexMatchAt (buildRegex s cs true) doc i =
        if occursAt cs s doc i ∧ boundaryAt doc i = true ∧
            boundaryAt doc (i + s.length) = true
        then some (i + s.length) else none)
    ∧ regexMatchAt (buildRegex s cs false) doc i =
        (if occursAt cs s doc i then some (i + s.length) else none)
    ∧ (s.all isWordChar = false → buildRegex s cs true = buildRegex s cs false) :=
  ⟨fun hw => regexMatchAt_WW_spec s doc cs i hne hw,
   regexMatchAt_noWW_spec s doc cs i,
   fun hw => buildRegex_WW_nonword s cs hw⟩

/-- Witness for C2: `"cat"` with `wholeWord = true` does not match inside
`"category"`, with `wholeWord = false` it does; for the mixed text `"a-b"`
the whole-word regex equals the substring regex. -/
theorem C2_whole_word_policy_witness :
    regexMatchAt (buildRegex ['c', 'a', 't'] false true)
      ['c', 'a', 't', 'e', 'g', 'o', 'r', 'y'] 0 = none ∧
    regexMatchAt (buildRegex ['c', 'a', 't'] false false)
      ['c', 'a', 't', 'e', 'g', 'o', 'r', 'y'] 0 = some 3 ∧
    buildRegex ['a', '-', 'b'] false true = buildRegex ['a', '-', 'b'] false false := by
  refine ⟨?_, ?_, ?_⟩
  · rw [(C2_whole_word_policy ['c', 'a', 't'] ['c', 'a', 't', 'e', 'g', 'o', 'r', 'y']
      false 0 (by decide)).1 (by decide)]
    decide
  · rw [(C2_whole_word_policy ['c', 'a', 't'] ['c', 'a', 't', 'e', 'g', 'o', 'r', 'y']
      false 0 (by decide)).2.1]
    decide
  · exact (C2_whole_word_policy ['a', '-', 'b'] [] false 0 (by decide)).2.2 (by decide)

/-! ## Lemmas: the exec loop and the reference scanner -/

theorem toksMatchAt_end (ic : Bool) (toks : List RTok) (doc : Str) (i e : Nat)
    (h : toksMatchAt ic toks doc i = some e) : e = i + countLits toks := by
  induction toks generalizing i with
  | nil =>
    simp [toksMatchAt] at h
    simp [countLits, h]
  | cons t ts ih =>
    cases t with
    | wordB =>
      by_cases hb : boundaryAt doc i = true
      · simp only [toksMatchAt, hb, if_true] at h
        simpa [countLits] using ih i h
      · simp [toksMatchAt, hb] at h
    | lit p =>
      cases hdoc : doc[i]? with
      | none => simp [toksMatchAt, hdoc] at h
      | some c =>
        by_cases hc : charMatches ic p c = true
        · simp only [toksMatchAt, hdoc, hc, if_true] at h
          have := ih (i + 1) h
          simp [countLits]
          omega
        · simp [toksMatchAt, hdoc, hc] at h

theorem toksMatchAt_within (ic : Bool) (toks : List RTok) (doc : Str) (i e : Nat)
    (hp : 0 < countLits toks) (h : toksMatchAt ic toks doc i = some e) :
    i < doc.length ∧ e ≤ doc.length := by
  induction toks generalizing i with
  | nil => simp [countLits] at hp
  | cons t ts ih =>
    cases t with
    | wordB =>
      by_cases hb : boundaryAt doc i = true
      · simp only [toksMatchAt, hb, if_true] at h
        exact ih i (by simpa [countLits] using hp) h
      · simp [toksMatchAt, hb] at h
    | lit p =>
      cases hdoc : doc[i]? with
      | none => simp [toksMatchAt, hdoc] at h
      | some c =>
        by_cases hc : charMatches ic p c = true
        · simp only [toksMatchAt, hdoc, hc, if_true] at h
          have hilt : i < doc.length := by
            have := List.getElem?_eq_some_iff.mp hdoc
            exact this.1
          refine ⟨hilt, ?_⟩
          by_cases hts : 0 < countLits ts
          · exact (ih (i + 1) hts h).2
          · have he := toksMatchAt_end ic ts doc (i + 1) e h
            omega
        · simp [toksMatchAt, hdoc, hc] at h

theorem toksMatchAt_none_of_ge (ic : Bool) (toks : List RTok) (doc : Str) (i : Nat)
    (hp : 0 < countLits toks) (hi : doc.length ≤ i) :
    toksMatchAt ic toks doc i = none := by
  cases h : toksMatchAt ic toks doc i with
  | none => rfl
  | some e =>
    have := (toksMatchAt_within ic toks doc i e hp h).1
    omega

theorem findFromAux_sound (ic : Bool) (toks : List RTok) (text : Str)
    (rem : Str) (i s e : Nat)
    (h : findFromAux ic toks text rem i = some (s, e)) :
    i ≤ s ∧ toksMatchAt ic toks text s = some e := by
  induction rem generalizing i with
  | nil =>
    rw [findFromAux] at h
    cases hm : toksMatchAt ic toks text i with
    | none =>
      simp only [hm] at h
      exact Option.noConfusion h
    | some e2 =>
      simp only [hm] at h
      simp at h
      obtain ⟨hs, he⟩ := h
      subst hs
      subst he
      exact ⟨Nat.le.refl, hm⟩
  | cons c rest ih =>
    rw [findFromAux] at h
    cases hm : toksMatchAt ic toks text i with
    | some e2 =>
      simp only [hm] at h
      simp at h
      obtain ⟨hs, he⟩ := h
      subst hs
      subst he
      exact ⟨Nat.le.refl, hm⟩
    | none =>
      simp only [hm] at h
      obtain ⟨h1, h2⟩ := ih (i + 1) h
      exact ⟨by omega, h2⟩

theorem findFromAux_min (ic : Bool) (toks : List RTok) (text : Str)
    (rem : Str) (i s e : Nat)
    (h : findFromAux ic toks text rem i = some (s, e)) :
    ∀ j, i ≤ j → j < s → toksMatchAt ic toks text j = none := by
  induction rem generalizing i with
  | nil =>
    intro j hij hjs
    rw [findFromAux] at h
    cases hm : toksMatchAt ic toks text i with
    | none =>
      simp only [hm] at h
      exact Option.noConfusion h
    | some e2 =>
      simp only [hm] at h
      simp at h
      omega
  | cons c rest ih =>
    intro j hij hjs
    rw [findFromAux] at h
    cases hm : toksMatchAt ic toks text i with
    | some e2 =>
      simp only [hm] at h
      simp at h
      omega
    | none =>
      simp only [hm] at h
      by_cases hji : j = i
      · rw [hji]; exact hm
      · exact ih (i + 1) h j (by omega) hjs

theorem findFromAux_none (ic : Bool) (toks : List RTok) (text : Str)
    (rem : Str) (i : Nat)
    (h : findFromAux ic toks text rem i = none) :
    ∀ j, i ≤ j → j ≤ i + rem.length → toksMatchAt ic toks text j = none := by
  induction rem generalizing i with
  | nil =>
    intro j hij hjs
    rw [findFromAux] at h
    cases hm : toksMatchAt ic toks text i with
    | some e2 =>
      simp only [hm] at h
      exact Option.noConfusion h
    | none =>
      have : j = i := by simp at hjs; omega
      rw [this]; exact hm
  | cons c rest ih =>
    intro j hij hjs
    rw [findFromAux] at h
    cases hm : toksMatchAt ic toks text i with
    | some e2 =>
      simp only [hm] at h
      exact Option.noConfusion h
    | none =>
      simp only [hm] at h
      by_cases hji : j = i
      · rw [hji]; exact hm
      · refine ih (i + 1) h j (by omega) ?_
        simp at hjs
        omega

theorem findFrom_sound (ic : Bool) (toks : List RTok) (text : Str) (i s e : Nat)
    (h : findFrom ic toks text i = some (s, e)) :
    i ≤ s ∧ toksMatchAt ic toks text s = some e :=
  findFromAux_sound ic toks text (text.drop i) i s e h

theorem findFrom_min (ic : Bool) (toks : List RTok) (text : Str) (i s e : Nat)
    (h : findFrom ic toks text i = some (s, e)) :
    ∀ j, i ≤ j → j < s → toksMatchAt ic toks text j = none :=
  findFromAux_min ic toks text (text.drop i) i s e h

theorem findFrom_none (ic : Bool) (toks : List RTok) (text : Str) (i : Nat)
    (hp : 0 < countLits toks) (hi : i ≤ text.length)
    (h : findFrom ic toks text i = none) :
    ∀ j, i ≤ j → toksMatchAt ic toks text j = none := by
  intro j hj
  by_cases hjl : j ≤ text.length
  · refine findFromAux_none ic toks text (text.drop i) i h j hj ?_
    rw [List.length_drop]
    omega
  · exact toksMatchAt_none_of_ge ic toks text j hp (by omega)

theorem scanFrom_nil_of_noneAux (ic : Bool) (toks : List RTok) (text : Str) :
    ∀ n i, text.length + 1 - i ≤ n →
      (∀ j, i ≤ j → toksMatchAt ic toks text j = none) →
      scanFrom ic toks text i = [] := by
  intro n
  induction n with
  | zero =>
    intro i hn hnone
    rw [scanFrom, dif_neg (by omega)]
  | succ n ih =>
    intro i hn hnone
    rw [scanFrom]
    by_cases hi : i ≤ text.length
    · rw [dif_pos hi]
      simp only [hnone i (Nat.le.refl)]
      exact ih (i + 1) (by omega) (fun j hj => hnone j (by omega))
    · rw [dif_neg hi]

theorem scanFrom_nil_of_none (ic : Bool) (toks : List RTok) (text : Str) (i : Nat)
    (hnone : ∀ j, i ≤ j → toksMatchAt ic toks text j = none) :
    scanFrom ic toks text i = [] :=
  scanFrom_nil_of_noneAux ic toks text (text.length + 1 - i) i (Nat.le.refl) hnone

theorem scanFrom_skipAux (ic : Bool) (toks : List RTok) (text : Str) :
    ∀ n i s e, text.length + 1 - i ≤ n → i ≤ s → s ≤ text.length → s < e →
      toksMatchAt ic toks text s = some e →
      (∀ j, i ≤ j → j < s → toksMatchAt ic toks text j = none) →
      scanFrom ic toks text i = (s, e) :: scanFrom ic toks text e := by
  intro n
  induction n with
  | zero =>
    intro i s e hn his hsl hse hm hnone
    omega
  | succ n ih =>
    intro i s e hn his hsl hse hm hnone
    by_cases heq : i = s
    · subst heq
      rw [scanFrom, dif_pos (by omega)]
      simp only [hm]
      rw [dif_pos hse]
    · rw [scanFrom, dif_pos (by omega)]
      simp only [hnone i (Nat.le.refl) (by omega)]
      exact ih (i + 1) s e (by omega) (by omega) hsl hse hm
        (fun j h1 h2 => hnone j (by omega) h2)

theorem execLoopF_spec (ic : Bool) (toks : List RTok) (text : Str)
    (hp : 0 < countLits toks) :
    ∀ fuel li, text.length + 1 - li ≤ fuel →
      execLoopF ic toks text fuel li = (scanFrom ic toks text li, 0) := by
  intro fuel
  induction fuel with
  | zero =>
    intro li hn
    rw [scanFrom, dif_neg (by omega)]
    simp [execLoopF]
  | succ fuel ih =>
    intro li hn
    by_cases hgt : li > text.length
    · rw [scanFrom_nil_of_none ic toks text li
        (fun j hj => toksMatchAt_none_of_ge ic toks text j hp (by omega))]
      simp only [execLoopF, jsExec, if_pos hgt]
    · cases hf : findFrom ic toks text li with
      | none =>
        have hnone := findFrom_none ic toks text li hp (by omega) hf
        rw [scanFrom_nil_of_none ic toks text li hnone]
        simp only [execLoopF, jsExec, if_neg hgt, hf]
      | some se =>
        obtain ⟨s, e⟩ := se
        obtain ⟨his, hm⟩ := findFrom_sound ic toks text li s e hf
        have hend := toksMatchAt_end ic toks text s e hm
        have hwithin := toksMatchAt_within ic toks text s e hp hm
        have hlie : li < e := by omega
        have hscan := scanFrom_skipAux ic toks text (text.length + 1 - li) li s e
          (Nat.le.refl) his (by omega) (by omega) hm
          (findFrom_min ic toks text li s e hf)
        rw [hscan]
        simp only [execLoopF, jsExec, if_neg hgt, hf]
        rw [if_pos hlie, ih e (by omega)]

theorem execLoopS_spec (ic : Bool) (toks : List RTok) (text : Str) (li : Nat)
    (hp : 0 < countLits toks) :
    execLoopS ic toks text li = (scanFrom ic toks text li, 0) :=
  execLoopF_spec ic toks text hp (text.length + 1) li (by omega)

theorem scanWindowsFresh_cons (ic : Bool) (toks : List RTok) (doc : Str)
    (w : Nat × Nat) (ws : List (Nat × Nat)) :
    scanWindowsFresh ic toks doc (w :: ws) =
      (jsExecAll ic toks (sliceString doc w.1 w.2)).map (absSpan w) ++
        scanWindowsFresh ic toks doc ws := by
  simp [scanWindowsFresh]

theorem sharedFold_go (ic : Bool) (toks : List RTok) (doc : Str)
    (hp : 0 < countLits toks) :
    ∀ (ws : List (Nat × Nat)) (acc1 : List (Nat × Nat)),
      (ws.foldl (sharedStep ic toks doc) (acc1, 0)).1 =
        acc1 ++ scanWindowsFresh ic toks doc ws := by
  intro ws
  induction ws with
  | nil =>
    intro acc1
    simp [scanWindowsFresh]
  | cons w ws ih =>
    intro acc1
    rw [List.foldl_cons]
    have hstep : sharedStep ic toks doc (acc1, 0) w =
        (acc1 ++ (scanFrom ic toks (sliceString doc w.1 w.2) 0).map (absSpan w), 0) := by
      rw [sharedStep, execLoopS_spec ic toks (sliceString doc w.1 w.2) 0 hp]
    rw [hstep, ih, scanWindowsFresh_cons, jsExecAll,
      execLoopS_spec ic toks (sliceString doc w.1 w.2) 0 hp, List.append_assoc]

/-- Claim C5: scanning the visible windows in sequence with one shared
stateful global matcher (the `lastIndex`-threading `searchVisibleRanges`
loop) yields exactly the spans of scanning each window independently with a
fresh matcher: the failing final `exec` of each window resets the cursor,
so no position state carries over between windows. -/
theorem C5_shared_matcher_stateless (ic : Bool) (toks : List RTok) (doc : Str)
    (ws : List (Nat × Nat)) (hp : 0 < countLits toks) :
    scanWindowsShared ic toks doc ws = scanWindowsFresh ic toks doc ws := by
  rw [scanWindowsShared, sharedFold_go ic toks doc hp ws []]
  rfl

/-- Witness for C5: the pattern `aa` over two windows of `"aaa aaaa"`. -/
theorem C5_shared_matcher_stateless_witness :
    scanWindowsShared false [RTok.lit 'a', RTok.lit 'a']
      ['a', 'a', 'a', ' ', 'a', 'a', 'a', 'a'] [(0, 3), (4, 8)] =
      [(0, 2), (4, 6), (6, 8)] := by
  rw [C5_shared_matcher_stateless false [RTok.lit 'a', RTok.lit 'a']
    ['a', 'a', 'a', ' ', 'a', 'a', 'a', 'a'] [(0, 3), (4, 8)] (by decide)]
  decide

/-! ## Lemmas: deduplication and aggregation -/

theorem dedupFold_nil (acc : List RawSpan × List (Nat × Nat)) :
    dedupFold [] acc = acc := rfl

theorem dedupFold_append (l1 l2 : List RawSpan) (acc : List RawSpan × List (Nat × Nat)) :
    dedupFold (l1 ++ l2) acc = dedupFold l2 (dedupFold l1 acc) := by
  rw [dedupFold, dedupFold, dedupFold, List.foldl_append]

theorem dedupFold_eq_dedupRec (l : List RawSpan) :
    ∀ out seen, dedupFold l (out, seen) =
      (out ++ dedupRec l seen, seen ++ (dedupRec l seen).map spanKey) := by
  induction l with
  | nil =>
    intro out seen
    simp [dedupFold, dedupRec]
  | cons sp rest ih =>
    intro out seen
    rw [dedupFold, List.foldl_cons]
    by_cases hk : spanKey sp ∈ seen
    · rw [show dedupStep (out, seen) sp = (out, seen) by rw [dedupStep, if_pos hk]]
      rw [show dedupRec (sp :: rest) seen = dedupRec rest seen by
        rw [dedupRec, if_pos hk]]
      exact ih out seen
    · rw [show dedupStep (out, seen) sp = (out ++ [sp], seen ++ [spanKey sp]) by
        rw [dedupStep, if_neg hk]]
      rw [show dedupRec (sp :: rest) seen = sp :: dedupRec rest (seen ++ [spanKey sp]) by
        rw [dedupRec, if_neg hk]]
      rw [show List.foldl dedupStep (out ++ [sp], seen ++ [spanKey sp]) rest =
        dedupFold rest (out ++ [sp], seen ++ [spanKey sp]) from rfl]
      rw [ih (out ++ [sp]) (seen ++ [spanKey sp])]
      simp

theorem collectVisibleMatches_eq (r : JsRegex) (deco : Deco) (doc : Str)
    (ranges : List (Nat × Nat)) :
    ∀ acc, collectVisibleMatches r deco doc ranges acc =
      dedupFold (ranges.flatMap (rangeSpans r deco 0 doc)) acc := by
  induction ranges with
  | nil =>
    intro acc
    simp [collectVisibleMatches, dedupFold]
  | cons w ws ih =>
    intro acc
    rw [collectVisibleMatches, List.foldl_cons, List.flatMap_cons, dedupFold_append]
    rw [show List.foldl (rangeStep r deco doc) (rangeStep r deco doc acc w) ws =
      collectVisibleMatches r deco doc ws (rangeStep r deco doc acc w) from rfl]
    rw [ih (rangeStep r deco doc acc w), rangeStep]

theorem wordFold_eq (doc : Str) (ranges : List (Nat × Nat)) (gcase : Bool) (gid : String) :
    ∀ (words : List Str) acc,
      words.foldl (wordStep doc ranges gcase gid) acc =
        dedupFold (words.flatMap (fun w =>
          ranges.flatMap (rangeSpans (buildRegex w gcase true) (Deco.group gid) 0 doc))) acc := by
  intro words
  induction words with
  | nil =>
    intro acc
    simp [dedupFold]
  | cons w ws ih =>
    intro acc
    rw [List.foldl_cons, List.flatMap_cons, dedupFold_append]
    rw [show wordStep doc ranges gcase gid acc w =
      collectVisibleMatches (buildRegex w gcase true) (Deco.group gid) doc ranges acc
      from rfl]
    rw [collectVisibleMatches_eq, ih]

theorem groupFold_eq (doc : Str) (ranges : List (Nat × Nat)) :
    ∀ (groups : List KeywordGroup) acc,
      groups.foldl (groupStep doc ranges) acc =
        dedupFold (groups.flatMap (groupSpans doc ranges)) acc := by
  intro groups
  induction groups with
  | nil =>
    intro acc
    simp [dedupFold]
  | cons g gs ih =>
    intro acc
    rw [List.foldl_cons, List.flatMap_cons, dedupFold_append, ih]
    congr 1
    rw [groupStep, groupSpans]
    by_cases he : g.enabled = true
    · rw [if_pos he, if_pos he, wordFold_eq]
    · rw [if_neg he, if_neg he, dedupFold_nil]

theorem selectionPass_eq (st : Settings) (doc : Str) (selFrom selTo : Nat)
    (ranges : List (Nat × Nat)) (acc : List RawSpan × List (Nat × Nat)) :
    selectionPass st doc selFrom selTo ranges acc =
      dedupFold (selectionSpans st doc selFrom selTo ranges) acc := by
  simp only [selectionPass, selectionSpans, selectionSpansOfText]
  split_ifs with h1 h2 h3
  · rw [collectVisibleMatches_eq]
  · rfl
  · rfl
  · rfl

theorem keywordPass_eq (st : Settings) (doc : Str) (ranges : List (Nat × Nat))
    (acc : List RawSpan × List (Nat × Nat)) :
    keywordPass st doc ranges acc = dedupFold (keywordSpans st doc ranges) acc := by
  rw [keywordPass, keywordSpans]
  split_ifs with h1
  · rw [groupFold_eq]
  · rfl

theorem buildDecorations_eq (st : Settings) (doc : Str) (selFrom selTo : Nat)
    (ranges : List (Nat × Nat)) :
    buildDecorations st doc selFrom selTo ranges =
      sortSpans (dedupRec (allProducedSpans st doc selFrom selTo ranges) []) := by
  rw [buildDecorations, selectionPass_eq, keywordPass_eq, allProducedSpans,
    ← dedupFold_append, dedupFold_eq_dedupRec]
  simp

theorem dedupRec_mem (l : List RawSpan) (seen : List (Nat × Nat)) (sp : RawSpan)
    (h : sp ∈ dedupRec l seen) : sp ∈ l := by
  induction l generalizing seen with
  | nil => simp [dedupRec] at h
  | cons x rest ih =>
    rw [dedupRec] at h
    by_cases hk : spanKey x ∈ seen
    · rw [if_pos hk] at h
      exact List.mem_cons_of_mem x (ih seen h)
    · rw [if_neg hk] at h
      rcases List.mem_cons.mp h with h1 | h2
      · rw [h1]
        exact List.mem_cons_self x rest
      · exact List.mem_cons_of_mem x (ih _ h2)

theorem dedupRec_fresh (l : List RawSpan) (seen : List (Nat × Nat)) (sp : RawSpan)
    (h : sp ∈ dedupRec l seen) : spanKey sp ∉ seen := by
  induction l generalizing seen with
  | nil => simp [dedupRec] at h
  | cons x rest ih =>
    rw [dedupRec] at h
    by_cases hk : spanKey x ∈ seen
    · rw [if_pos hk] at h
      exact ih seen h
    · rw [if_neg hk] at h
      rcases List.mem_cons.mp h with h1 | h2
      · rw [h1]
        exact hk
      · intro hmem
        exact ih (seen ++ [spanKey x]) h2 (List.mem_append_left _ hmem)

theorem dedupRec_keys_nodup (l : List RawSpan) :
    ∀ seen, ((dedupRec l seen).map spanKey).Nodup := by
  induction l with
  | nil =>
    intro seen
    simp [dedupRec]
  | cons x rest ih =>
    intro seen
    rw [dedupRec]
    by_cases hk : spanKey x ∈ seen
    · rw [if_pos hk]
      exact ih seen
    · rw [if_neg hk, List.map_cons, List.nodup_cons]
      refine ⟨?_, ih _⟩
      intro hmem
      obtain ⟨sp, hsp, hkeq⟩ := List.mem_map.mp hmem
      have hfresh := dedupRec_fresh rest (seen ++ [spanKey x]) sp hsp
      have hx : spanKey sp ∈ seen ++ [spanKey x] := by
        rw [hkeq]
        simp
      exact hfresh hx

theorem dedupRec_filter_none (l : List RawSpan) (seen : List (Nat × Nat))
    (k : Nat × Nat) (hk : k ∈ seen) :
    (dedupRec l seen).filter (fun sp => spanKey sp == k) = [] := by
  refine List.filter_eq_nil_iff.mpr ?_
  intro sp hsp
  simp only [beq_iff_eq]
  intro heq
  exact dedupRec_fresh l seen sp hsp (heq ▸ hk)

theorem dedupRec_filter_find (l : List RawSpan) :
    ∀ seen (k : Nat × Nat), k ∉ seen →
      (dedupRec l seen).filter (fun sp => spanKey sp == k) =
        (l.find? (fun sp => spanKey sp == k)).toList := by
  induction l with
  | nil =>
    intro seen k hk
    simp [dedupRec]
  | cons x rest ih =>
    intro seen k hk
    rw [dedupRec]
    by_cases hkx : spanKey x ∈ seen
    · rw [if_pos hkx]
      have hne : ¬ (spanKey x == k) = true := by
        simp only [beq_iff_eq]
        intro heq
        exact hk (heq ▸ hkx)
      rw [@List.find?_cons_of_neg _ (fun sp => spanKey sp == k) x rest hne]
      exact ih seen k hk
    · rw [if_neg hkx, List.filter_cons]
      by_cases heq : (spanKey x == k) = true
      · rw [if_pos heq, @List.find?_cons_of_pos _ (fun sp => spanKey sp == k) x rest heq]
        have hkeq : k = spanKey x := by
          simp only [beq_iff_eq] at heq
          exact heq.symm
        rw [dedupRec_filter_none rest (seen ++ [spanKey x]) k (by rw [hkeq]; simp)]
        rfl
      · rw [if_neg heq, @List.find?_cons_of_neg _ (fun sp => spanKey sp == k) x rest heq]
        refine ih (seen ++ [spanKey x]) k ?_
        intro hmem
        rcases List.mem_append.mp hmem with h1 | h2
        · exact hk h1
        · rw [List.mem_singleton] at h2
          simp only [beq_iff_eq] at heq
          exact heq h2.symm

theorem rangeSpans_mem (r : JsRegex) (deco : Deco) (ss : Int) (doc : Str)
    (w : Nat × Nat) (sp : RawSpan) (h : sp ∈ rangeSpans r deco ss doc w) :
    sp.deco = deco ∧ sp.startSide = ss := by
  rw [rangeSpans] at h
  obtain ⟨m, _, hmk⟩ := List.mem_map.mp h
  rw [← hmk]
  exact ⟨rfl, rfl⟩

theorem selectionSpans_mem (st : Settings) (doc : Str) (sf stt : Nat)
    (rs : List (Nat × Nat)) (sp : RawSpan)
    (h : sp ∈ selectionSpans st doc sf stt rs) :
    sp.deco = Deco.selection ∧ sp.startSide = 0 := by
  simp only [selectionSpans, selectionSpansOfText] at h
  split_ifs at h with h1 h2 h3
  · obtain ⟨w, _, hsp⟩ := List.mem_flatMap.mp h
    exact rangeSpans_mem _ _ _ _ _ _ hsp
  all_goals simp at h

theorem keywordSpans_mem (st : Settings) (doc : Str) (rs : List (Nat × Nat))
    (sp : RawSpan) (h : sp ∈ keywordSpans st doc rs) :
    (∃ gid, sp.deco = Deco.group gid) ∧ sp.startSide = 0 := by
  rw [keywordSpans] at h
  split_ifs at h with h1
  · obtain ⟨g, _, hsp⟩ := List.mem_flatMap.mp h
    rw [groupSpans] at hsp
    split_ifs at hsp with h2
    · obtain ⟨w, _, hsp2⟩ := List.mem_flatMap.mp hsp
      obtain ⟨w2, _, hsp3⟩ := List.mem_flatMap.mp hsp2
      obtain ⟨hdeco, hss⟩ := rangeSpans_mem _ _ _ _ _ _ hsp3
      exact ⟨⟨g.id, hdeco⟩, hss⟩
    · simp at hsp
  · simp at h

theorem allProducedSpans_ss (st : Settings) (doc : Str) (sf stt : Nat)
    (rs : List (Nat × Nat)) (sp : RawSpan)
    (h : sp ∈ allProducedSpans st doc sf stt rs) : sp.startSide = 0 := by
  rw [allProducedSpans] at h
  rcases List.mem_append.mp h with h1 | h2
  · exact (selectionSpans_mem st doc sf stt rs sp h1).2
  · exact (keywordSpans_mem st doc rs sp h2).2

theorem sortSpans_perm (l : List RawSpan) : List.Perm (sortSpans l) l :=
  List.perm_insertionSort spanLE l

theorem sortSpans_sorted (l : List RawSpan) : (sortSpans l).Pairwise spanLE :=
  List.sorted_insertionSort spanLE l

/-- Claim C3 as stated is false on the code: with document `"ab,"`, the
whole document selected (selection pattern `"ab,"`) and one enabled keyword
group containing `"ab"`, the produced set is
`[(0,2) keyword, (0,3) selection]` — the two spans share their start, and
the keyword span comes first although the selection class has higher
precedence; ties are broken by end offset, not by source precedence. -/
theorem C3_counterexample :
    buildDecorations settingsEx3 docEx3 0 3 [(0, 3)] =
      [RawSpan.mk 0 2 (Deco.group "g1") 0, RawSpan.mk 0 3 Deco.selection 0] ∧
    ¬ specClaimedLE settingsEx3 (RawSpan.mk 0 2 (Deco.group "g1") 0)
        (RawSpan.mk 0 3 Deco.selection 0) := by
  constructor
  · decide
  · decide

/-- Claim C3 (amended): for every combination of enabled sources, document,
selection and visible windows, the produced DecorationSet is sorted
strictly ascending by `(start, end)` — ascending starts, ties broken by end
ascending (source precedence does not participate in the comparator, whose
middle `startSide` component is always 0) — and hence contains no two spans
with identical `(start, end)`. -/
theorem C3_sorted_no_duplicates (st : Settings) (doc : Str) (sf stt : Nat)
    (rs : List (Nat × Nat)) :
    (buildDecorations st doc sf stt rs).Pairwise spanKeyLT := by
  rw [buildDecorations_eq]
  have hperm := sortSpans_perm (dedupRec (allProducedSpans st doc sf stt rs) [])
  have hsorted := sortSpans_sorted (dedupRec (allProducedSpans st doc sf stt rs) [])
  have hkeys : (dedupRec (allProducedSpans st doc sf stt rs) []).Pairwise
      (fun a b => spanKey a ≠ spanKey b) := by
    have hnodup := dedupRec_keys_nodup (allProducedSpans st doc sf stt rs) []
    exact List.pairwise_map.mp hnodup
  have hkeys2 : (sortSpans (dedupRec (allProducedSpans st doc sf stt rs) [])).Pairwise
      (fun a b => spanKey a ≠ spanKey b) :=
    (hperm.pairwise_iff (fun hab => Ne.symm hab)).mpr hkeys
  have hss : ∀ sp ∈ sortSpans (dedupRec (allProducedSpans st doc sf stt rs) []),
      sp.startSide = 0 := by
    intro sp hsp
    exact allProducedSpans_ss st doc sf stt rs sp
      (dedupRec_mem _ _ _ (hperm.subset hsp))
  refine (hsorted.and hkeys2).imp_of_mem ?_
  intro a b ha hb hr
  obtain ⟨hle, hne⟩ := hr
  have hsa := hss a ha
  have hsb := hss b hb
  rw [spanLE] at hle
  rw [hsa, hsb] at hle
  have hne2 : ¬ (a.spanFrom = b.spanFrom ∧ a.spanTo = b.spanTo) := by
    intro hand
    apply hne
    rw [spanKey, spanKey, hand.1, hand.2]
  rw [spanKeyLT]
  omega

/-- Claim C4: when several sources produce a span with the same
`(start, end)` key, the aggregator emits exactly one span at that key,
styled after the first source in precedence order (selection first, then
groups in declaration order) that produced it — `find?` over the
concatenated per-source span lists; in particular, if the selection source
produced the key, the emitted span carries the selection style. -/
theorem C4_dedup_highest_precedence (st : Settings) (doc : Str) (sf stt : Nat)
    (rs : List (Nat × Nat)) (k : Nat × Nat) (sp : RawSpan)
    (hfind : (allProducedSpans st doc sf stt rs).find? (fun x => spanKey x == k) = some sp) :
    (buildDecorations st doc sf stt rs).filter (fun x => spanKey x == k) = [sp]
    ∧ (k ∈ (selectionSpans st doc sf stt rs).map spanKey → sp.deco = Deco.selection) := by
  constructor
  · rw [buildDecorations_eq]
    have hperm := (sortSpans_perm (dedupRec (allProducedSpans st doc sf stt rs) [])).filter
      (fun x => spanKey x == k)
    have hfilter := dedupRec_filter_find (allProducedSpans st doc sf stt rs) [] k
      (List.not_mem_nil k)
    rw [hfind] at hfilter
    rw [hfilter] at hperm
    exact List.perm_singleton.mp hperm
  · intro hksel
    obtain ⟨x, hx, hkx⟩ := List.mem_map.mp hksel
    have hsome : (List.find? (fun x => spanKey x == k)
        (selectionSpans st doc sf stt rs)).isSome := by
      rw [List.find?_isSome]
      exact ⟨x, hx, by simp [hkx]⟩
    obtain ⟨y, hy⟩ := Option.isSome_iff_exists.mp hsome
    have happ : (allProducedSpans st doc sf stt rs).find? (fun x => spanKey x == k) =
        some y := by
      rw [allProducedSpans, List.find?_append, hy]
      rfl
    have hspy : sp = y := by
      rw [happ] at hfind
      exact (Option.some.injEq _ _ ▸ hfind).symm ▸ rfl
    have hymem : y ∈ selectionSpans st doc sf stt rs := List.mem_of_find?_eq_some hy
    rw [hspy]
    exact (selectionSpans_mem st doc sf stt rs y hymem).1

/-- Witness for C4: document `"cat"`, selection `"cat"`, one enabled group
also containing `"cat"`: both sources produce `(0, 3)` and the single
emitted span is styled as selection. -/
theorem C4_dedup_highest_precedence_witness :
    (buildDecorations settingsEx4 ['c', 'a', 't'] 0 3 [(0, 3)]).filter
      (fun x => spanKey x == (0, 3)) = [RawSpan.mk 0 3 Deco.selection 0] ∧
    (RawSpan.mk 0 3 Deco.selection 0).deco = Deco.selection := by
  have h := C4_dedup_highest_precedence settingsEx4 ['c', 'a', 't'] 0 3 [(0, 3)]
    (0, 3) (RawSpan.mk 0 3 Deco.selection 0) (by decide)
  exact ⟨h.1, h.2 (by decide)⟩

/-! ## Change Detector (C8) -/

/-- Claim C8 as stated is false on the code: starting from the state
retained by a recomputation under case-sensitive settings, flipping only
the case-sensitivity flag (no selection/document/viewport event, enabled
and auto-keyword flags unchanged) leaves the stored decorations untouched,
although a recomputation under the new settings would produce a different
set — the detector does not track the case-sensitivity flag. -/
theorem C8_counterexample :
    updateModel (UpdateEvent.mk false false false) settingsEx8b docEx8 0 1 [(0, 3)]
        (recomputedState settingsEx8a docEx8 0 1 [(0, 3)]) =
      recomputedState settingsEx8a docEx8 0 1 [(0, 3)] ∧
    settingsEx8b.occuraCaseSensitive ≠ settingsEx8a.occuraCaseSensitive ∧
    (recomputedState settingsEx8a docEx8 0 1 [(0, 3)]).decorations ≠
      buildDecorations settingsEx8b docEx8 0 1 [(0, 3)] := by
  refine ⟨by decide, by decide, by decide⟩

/-- Claim C8 (amended): the Change Detector recomputes the decoration set
synchronously exactly when the update event reports a selection, document
or viewport change, or when one of the two retained configuration flags —
enabled/disabled and the auto-keyword toggle — differs in value from its
last-seen copy (value comparison against the retained state, not event
identity); the case-sensitivity flags are not tracked.  When no trigger
holds, the stored state (decorations and retained flags) is returned
unchanged. -/
theorem C8_change_detector (u : UpdateEvent) (st : Settings) (doc : Str)
    (sf stt : Nat) (rs : List (Nat × Nat)) (ps : PluginViewState) :
    ((u.selectionSet || u.docChanged || u.viewportChanged
        || (st.occuraPluginEnabled != ps.lastEnabled)
        || (st.autoKeywordsHighlightEnabled != ps.lastAutoHL)) = true →
      updateModel u st doc sf stt rs ps = recomputedState st doc sf stt rs)
    ∧ ((u.selectionSet || u.docChanged || u.viewportChanged
        || (st.occuraPluginEnabled != ps.lastEnabled)
        || (st.autoKeywordsHighlightEnabled != ps.lastAutoHL)) = false →
      ∀ b : Bool,
        updateModel u (withCaseSensitivity st b) doc sf stt rs ps = ps) := by
  constructor
  · intro h
    rw [updateModel, if_pos h]
    rfl
  · intro h b
    rw [updateModel, if_neg]
    simp only [withCaseSensitivity]
    simp at h
    simp [h]

/-- Witness for C8 (amended): a viewport event triggers a recomputation; a
quiet update leaves the state unchanged for either value of the
case-sensitivity flag. -/
theorem C8_change_detector_witness :
    updateModel (UpdateEvent.mk false false true) settingsEx8a docEx8 0 1 [(0, 3)]
        (recomputedState settingsEx8a docEx8 0 1 [(0, 3)]) =
      recomputedState settingsEx8a docEx8 0 1 [(0, 3)] ∧
    updateModel (UpdateEvent.mk false false false)
        (withCaseSensitivity settingsEx8a false) docEx8 0 1 [(0, 3)]
        (recomputedState settingsEx8a docEx8 0 1 [(0, 3)]) =
      recomputedState settingsEx8a docEx8 0 1 [(0, 3)] := by
  constructor
  · rw [(C8_change_detector (UpdateEvent.mk false false true) settingsEx8a docEx8 0 1
      [(0, 3)] (recomputedState settingsEx8a docEx8 0 1 [(0, 3)])).1 (by decide)]
  · exact (C8_change_detector (UpdateEvent.mk false false false) settingsEx8a docEx8 0 1
      [(0, 3)] (recomputedState settingsEx8a docEx8 0 1 [(0, 3)])).2 (by decide) false

/-! ## Lemmas: trimming -/

theorem dropWhile_ws_append (p l : Str) (hp : ∀ c ∈ p, c.isWhitespace = true) :
    (p ++ l).dropWhile Char.isWhitespace = l.dropWhile Char.isWhitespace := by
  induction p with
  | nil => rfl
  | cons c cs ih =>
    rw [List.cons_append, List.dropWhile_cons]
    rw [hp c (List.mem_cons_self c cs)]
    simp only [if_true]
    exact ih (fun c2 h2 => hp c2 (List.mem_cons_of_mem c h2))

theorem dropWhile_ws_id (l : Str) (h : ∀ c ∈ l, c.isWhitespace = false) :
    l.dropWhile Char.isWhitespace = l := by
  cases l with
  | nil => rfl
  | cons c cs =>
    rw [List.dropWhile_cons, h c (List.mem_cons_self c cs)]
    simp

theorem dropWhile_ws_all (l : Str) (h : ∀ c ∈ l, c.isWhitespace = true) :
    l.dropWhile Char.isWhitespace = [] := by
  have := dropWhile_ws_append l [] h
  simpa using this

theorem trim_pad (pad1 pad2 core : Str)
    (h1 : ∀ c ∈ pad1, c.isWhitespace = true)
    (h2 : ∀ c ∈ pad2, c.isWhitespace = true)
    (hcw : ∀ c ∈ core, c.isWhitespace = false) :
    trim (pad1 ++ core ++ pad2) = core := by
  cases core with
  | nil =>
    rw [trim, List.append_nil, dropWhile_ws_append pad1 pad2 h1,
      dropWhile_ws_all pad2 h2]
    rfl
  | cons c cs =>
    rw [trim, List.append_assoc, dropWhile_ws_append pad1 _ h1, List.cons_append,
      List.dropWhile_cons, hcw c (List.mem_cons_self c cs)]
    simp only [Bool.false_eq_true, if_false]
    rw [show c :: (cs ++ pad2) = (c :: cs) ++ pad2 from rfl, List.reverse_append,
      dropWhile_ws_append pad2.reverse _ (fun x hx => h2 x (List.mem_reverse.mp hx)),
      dropWhile_ws_id (c :: cs).reverse (fun x hx => hcw x (List.mem_reverse.mp hx)),
      List.reverse_reverse]

theorem trim_ws_free (core : Str) (hcw : ∀ c ∈ core, c.isWhitespace = false) :
    trim core = core := by
  have := trim_pad [] [] core (by simp) (by simp) hcw
  simpa using this

/-! ## Error handling of the Permanent-Mark commands (C9) -/

/-- Claim C9: every Permanent-Mark command invocation with no active
document context, an empty or whitespace-containing (after trimming)
selection, or zero matches for its transform aborts with a user-visible
notice and performs no edit — in particular the resulting document is the
unchanged original; every such failure is detected before any edit. -/
theorem C9_failures_abort_without_mutation (doc selRaw : Str) :
    (setPermanentHighlightOccurrences none = CmdResult.aborted "No active editor"
      ∧ removePermanentHighlightOccurrences none = CmdResult.aborted "No active editor"
      ∧ createTagForOccurrences none = CmdResult.aborted "No active editor"
      ∧ removeTagFromOccurrences none = CmdResult.aborted "No active editor")
    ∧ ((trim selRaw).isEmpty = true ∨ (trim selRaw).any Char.isWhitespace = true →
        setPermanentHighlightOccurrences (some (Ctx.mk doc selRaw)) =
          CmdResult.aborted "Select some text first."
        ∧ removePermanentHighlightOccurrences (some (Ctx.mk doc selRaw)) =
          CmdResult.aborted "Select text to un-highlight."
        ∧ createTagForOccurrences (some (Ctx.mk doc selRaw)) =
          CmdResult.aborted "Select one word to tag."
        ∧ removeTagFromOccurrences (some (Ctx.mk doc selRaw)) =
          CmdResult.aborted "Select the tagged word.")
    ∧ (regexExecAll (buildRegex (trim selRaw) true false) doc = [] →
        ∃ msg, setPermanentHighlightOccurrences (some (Ctx.mk doc selRaw)) =
          CmdResult.aborted msg)
    ∧ (regexExecAll (buildRegex (('=' :: '=' :: trim selRaw) ++ ['=', '=']) true false)
          doc = [] →
        ∃ msg, removePermanentHighlightOccurrences (some (Ctx.mk doc selRaw)) =
          CmdResult.aborted msg)
    ∧ (regexExecAll (buildRegex (trim selRaw) true true) doc = [] →
        ∃ msg, createTagForOccurrences (some (Ctx.mk doc selRaw)) =
          CmdResult.aborted msg)
    ∧ (regexExecAll (buildRegex ('#' :: trim selRaw) true false) doc = [] →
        ∃ msg, removeTagFromOccurrences (some (Ctx.mk doc selRaw)) =
          CmdResult.aborted msg)
    ∧ (∀ (msg : String) (orig : Str), resultDoc (CmdResult.aborted msg) orig = orig) := by
  refine ⟨⟨rfl, rfl, rfl, rfl⟩, ?_, ?_, ?_, ?_, ?_, fun msg orig => rfl⟩
  · intro h
    have hb : ((trim selRaw).isEmpty || (trim selRaw).any Char.isWhitespace) = true := by
      rcases h with h | h <;> simp [h]
    refine ⟨?_, ?_, ?_, ?_⟩ <;>
      simp [setPermanentHighlightOccurrences, removePermanentHighlightOccurrences,
        createTagForOccurrences, removeTagFromOccurrences, hb]
  · intro h
    by_cases hg : ((trim selRaw).isEmpty || (trim selRaw).any Char.isWhitespace) = true
    · exact ⟨"Select some text first.",
        by simp [setPermanentHighlightOccurrences, hg]⟩
    · exact ⟨"No occurrences found.",
        by simp [setPermanentHighlightOccurrences, hg, h]⟩
  · intro h
    by_cases hg : ((trim selRaw).isEmpty || (trim selRaw).any Char.isWhitespace) = true
    · exact ⟨"Select text to un-highlight.",
        by simp [removePermanentHighlightOccurrences, hg]⟩
    · refine ⟨"No highlighted occurrences found.", ?_⟩
      simp only [List.cons_append] at h
      simp [removePermanentHighlightOccurrences, hg, h]
  · intro h
    by_cases hg : ((trim selRaw).isEmpty || (trim selRaw).any Char.isWhitespace) = true
    · exact ⟨"Select one word to tag.",
        by simp [createTagForOccurrences, hg]⟩
    · exact ⟨"No occurrences found.",
        by simp [createTagForOccurrences, hg, h]⟩
  · intro h
    by_cases hg : ((trim selRaw).isEmpty || (trim selRaw).any Char.isWhitespace) = true
    · exact ⟨"Select the tagged word.",
        by simp [removeTagFromOccurrences, hg]⟩
    · exact ⟨"No tagged occurrences found.",
        by simp [removeTagFromOccurrences, hg, h]⟩

/-- Witness for C9: a whitespace selection makes the tag command abort with
its notice; a selection with no occurrence makes the wrap command abort. -/
theorem C9_failures_abort_without_mutation_witness :
    createTagForOccurrences (some (Ctx.mk ['c', 'a', 't'] [' '])) =
      CmdResult.aborted "Select one word to tag." ∧
    (∃ msg, setPermanentHighlightOccurrences (some (Ctx.mk ['c', 'a', 't'] ['d', 'o', 'g'])) =
      CmdResult.aborted msg) := by
  constructor
  · exact ((C9_failures_abort_without_mutation ['c', 'a', 't'] [' ']).2.1
      (by decide)).2.2.1
  · exact (C9_failures_abort_without_mutation ['c', 'a', 't'] ['d', 'o', 'g']).2.2.1
      (by decide)

/-! ## Selection trimming (C10) -/

/-- Claim C10: every operation that takes the current selection as its
pattern — live selection highlighting and all four Permanent-Mark
commands — first trims the selected text and applies the empty/whitespace
test to the trimmed result: a selection whose text is a nonempty
whitespace-free core surrounded by whitespace behaves exactly like the bare
core (the trimmed core is the search pattern) and passes the rejection
test, while a selection whose trimmed text still contains (interior)
whitespace is rejected. -/
theorem C10_selection_trimming (pad1 pad2 core doc : Str) (st : Settings)
    (rs : List (Nat × Nat))
    (h1 : ∀ c ∈ pad1, c.isWhitespace = true)
    (h2 : ∀ c ∈ pad2, c.isWhitespace = true)
    (hcne : core ≠ [])
    (hcw : ∀ c ∈ core, c.isWhitespace = false) :
    trim (pad1 ++ core ++ pad2) = core
    ∧ setPermanentHighlightOccurrences (some (Ctx.mk doc (pad1 ++ core ++ pad2))) =
        setPermanentHighlightOccurrences (some (Ctx.mk doc core))
    ∧ removePermanentHighlightOccurrences (some (Ctx.mk doc (pad1 ++ core ++ pad2))) =
        removePermanentHighlightOccurrences (some (Ctx.mk doc core))
    ∧ createTagForOccurrences (some (Ctx.mk doc (pad1 ++ core ++ pad2))) =
        createTagForOccurrences (some (Ctx.mk doc core))
    ∧ removeTagFromOccurrences (some (Ctx.mk doc (pad1 ++ core ++ pad2))) =
        removeTagFromOccurrences (some (Ctx.mk doc core))
    ∧ selectionSpansOfText st doc (pad1 ++ core ++ pad2) rs =
        selectionSpansOfText st doc core rs
    ∧ setPermanentHighlightOccurrences (some (Ctx.mk doc (pad1 ++ core ++ pad2))) ≠
        CmdResult.aborted "Select some text first."
    ∧ (∀ selRaw : Str, (trim selRaw).any Char.isWhitespace = true →
        setPermanentHighlightOccurrences (some (Ctx.mk doc selRaw)) =
          CmdResult.aborted "Select some text first.") := by
  have htrim := trim_pad pad1 pad2 core h1 h2 hcw
  have htc := trim_ws_free core hcw
  have hgf : (core.isEmpty || core.any Char.isWhitespace) = false := by
    cases core with
    | nil => exact absurd rfl hcne
    | cons c cs =>
      simp only [List.isEmpty_cons, Bool.false_or]
      exact List.any_eq_false.mpr (fun x hx => by simp [hcw x hx])
  refine ⟨htrim, ?_, ?_, ?_, ?_, ?_, ?_, ?_⟩
  · simp only [setPermanentHighlightOccurrences]
    rw [htrim, htc]
  · simp only [removePermanentHighlightOccurrences]
    rw [htrim, htc]
  · simp only [createTagForOccurrences]
    rw [htrim, htc]
  · simp only [removeTagFromOccurrences]
    rw [htrim, htc]
  · simp only [selectionSpansOfText]
    rw [htrim, htc]
  · simp only [setPermanentHighlightOccurrences]
    rw [htrim]
    rw [if_neg (by rw [hgf]; simp)]
    split_ifs with hm <;> simp
  · intro selRaw h
    have hb : ((trim selRaw).isEmpty || (trim selRaw).any Char.isWhitespace) = true := by
      simp [h]
    simp [setPermanentHighlightOccurrences, hb]

/-- Witness for C10 at `core = "cat"` padded by single spaces, document
`"cat"`. -/
theorem C10_selection_trimming_witness :
    trim ([' '] ++ ['c', 'a', 't'] ++ [' ']) = ['c', 'a', 't'] ∧
    setPermanentHighlightOccurrences
        (some (Ctx.mk ['c', 'a', 't'] ([' '] ++ ['c', 'a', 't'] ++ [' ']))) =
      setPermanentHighlightOccurrences (some (Ctx.mk ['c', 'a', 't'] ['c', 'a', 't'])) ∧
    setPermanentHighlightOccurrences
        (some (Ctx.mk ['c', 'a', 't'] ([' '] ++ ['c', 'a', 't'] ++ [' ']))) ≠
      CmdResult.aborted "Select some text first." := by
  have h := C10_selection_trimming [' '] [' '] ['c', 'a', 't'] ['c', 'a', 't']
    settingsEx4 [(0, 3)] (by decide) (by decide) (by decide) (by decide)
  exact ⟨h.1, h.2.1, h.2.2.2.2.2.2.1⟩

/-! ## Lemmas: batch edits — descending application and splicing -/

theorem EditsOK_weaken (doc : Str) (M : List (Nat × Nat)) (lo lo2 : Nat)
    (h : EditsOK doc lo M) (hle : lo2 ≤ lo) : EditsOK doc lo2 M := by
  cases M with
  | nil => trivial
  | cons m rest =>
    obtain ⟨a, b, c, d⟩ := h
    exact ⟨by omega, b, c, d⟩

theorem scanFrom_EditsOKAux (ic : Bool) (toks : List RTok) (text : Str)
    (hp : 0 < countLits toks) :
    ∀ n i, text.length + 1 - i ≤ n → EditsOK text i (scanFrom ic toks text i) := by
  intro n
  induction n with
  | zero =>
    intro i hn
    rw [scanFrom, dif_neg (by omega)]
    trivial
  | succ n ih =>
    intro i hn
    by_cases hi : i ≤ text.length
    · rw [scanFrom, dif_pos hi]
      cases hm : toksMatchAt ic toks text i with
      | none =>
        simp only []
        by_cases hi2 : i + 1 ≤ text.length
        · exact EditsOK_weaken text _ (i + 1) i (ih (i + 1) (by omega)) (by omega)
        · rw [scanFrom, dif_neg (by omega)]
          trivial
      | some e =>
        have hend := toksMatchAt_end ic toks text i e hm
        have hwithin := toksMatchAt_within ic toks text i e hp hm
        have hlt : i < e := by omega
        show EditsOK text i (if h2 : i < e then (i, e) :: scanFrom ic toks text e else [])
        rw [dif_pos hlt]
        exact ⟨Nat.le.refl, by omega, by omega, ih e (by omega)⟩
    · rw [scanFrom, dif_neg hi]
      trivial

theorem scanFrom_EditsOK (ic : Bool) (toks : List RTok) (text : Str) (i : Nat)
    (hp : 0 < countLits toks) : EditsOK text i (scanFrom ic toks text i) :=
  scanFrom_EditsOKAux ic toks text hp (text.length + 1 - i) i Nat.le.refl

theorem foldDescIns_spliceAbs (doc : Str) (g : Str → Str) (ins : Nat × Nat → Str) :
    ∀ (M : List (Nat × Nat)) (lo : Nat), EditsOK doc lo M →
      (∀ m ∈ M, ins m = g ((doc.drop m.1).take (m.2 - m.1))) →
      M.reverse.foldl (fun d m => applyOne d m.1 m.2 (ins m)) doc =
        doc.take lo ++ spliceAbs doc g lo M := by
  intro M
  induction M with
  | nil =>
    intro lo hok hins
    rw [List.reverse_nil, List.foldl_nil, spliceAbs, List.take_append_drop]
  | cons m rest ih =>
    intro lo hok hins
    obtain ⟨hlo, hft, htl, hrest⟩ := hok
    rw [List.reverse_cons, List.foldl_append, List.foldl_cons, List.foldl_nil]
    rw [ih m.2 hrest (fun x hx => hins x (List.mem_cons_of_mem _ hx))]
    have hlen : (doc.take m.2).length = m.2 := by
      rw [List.length_take]
      omega
    have h1 : (doc.take m.2 ++ spliceAbs doc g m.2 rest).take m.1 = doc.take m.1 := by
      rw [List.take_append_of_le_length (by omega), List.take_take, min_eq_left hft]
    have h2 : (doc.take m.2 ++ spliceAbs doc g m.2 rest).drop m.2 =
        spliceAbs doc g m.2 rest := by
      have := List.drop_left (doc.take m.2) (spliceAbs doc g m.2 rest)
      rwa [hlen] at this
    have htake : doc.take lo ++ (doc.drop lo).take (m.1 - lo) = doc.take m.1 := by
      have := List.take_add doc lo (m.1 - lo)
      rw [show lo + (m.1 - lo) = m.1 by omega] at this
      rw [this]
    rw [applyOne, h1, h2, hins m (List.mem_cons_self _ _), spliceAbs,
      ← List.append_assoc, ← List.append_assoc, htake]

theorem foldDescCur_spliceAbs (doc : Str) (g : Str → Str) :
    ∀ (M : List (Nat × Nat)) (lo : Nat), EditsOK doc lo M →
      M.reverse.foldl (fun d m => applyOne d m.1 m.2 (g ((d.drop m.1).take (m.2 - m.1)))) doc =
        doc.take lo ++ spliceAbs doc g lo M := by
  intro M
  induction M with
  | nil =>
    intro lo hok
    rw [List.reverse_nil, List.foldl_nil, spliceAbs, List.take_append_drop]
  | cons m rest ih =>
    intro lo hok
    obtain ⟨hlo, hft, htl, hrest⟩ := hok
    rw [List.reverse_cons, List.foldl_append, List.foldl_cons, List.foldl_nil]
    rw [ih m.2 hrest]
    have hlen : (doc.take m.2).length = m.2 := by
      rw [List.length_take]
      omega
    have h1 : (doc.take m.2 ++ spliceAbs doc g m.2 rest).take m.1 = doc.take m.1 := by
      rw [List.take_append_of_le_length (by omega), List.take_take, min_eq_left hft]
    have h2 : (doc.take m.2 ++ spliceAbs doc g m.2 rest).drop m.2 =
        spliceAbs doc g m.2 rest := by
      have := List.drop_left (doc.take m.2) (spliceAbs doc g m.2 rest)
      rwa [hlen] at this
    have hslice : ((doc.take m.2 ++ spliceAbs doc g m.2 rest).drop m.1).take (m.2 - m.1) =
        (doc.drop m.1).take (m.2 - m.1) := by
      rw [List.drop_append_of_le_length (by omega)]
      have hslen : ((doc.take m.2).drop m.1).length = m.2 - m.1 := by
        rw [List.length_drop, hlen]
      rw [List.take_append_of_le_length (by omega),
        List.take_of_length_le (by omega), List.drop_take]
    have htake : doc.take lo ++ (doc.drop lo).take (m.1 - lo) = doc.take m.1 := by
      have := List.take_add doc lo (m.1 - lo)
      rw [show lo + (m.1 - lo) = m.1 by omega] at this
      rw [this]
    rw [applyOne, h1, h2, hslice, spliceAbs,
      ← List.append_assoc, ← List.append_assoc, htake]

theorem EditsOK_ge (doc : Str) : ∀ (M : List (Nat × Nat)) (lo : Nat),
    EditsOK doc lo M → ∀ m ∈ M, lo ≤ m.1 := by
  intro M
  induction M with
  | nil =>
    intro lo _ m hm
    simp at hm
  | cons x rest ih =>
    intro lo hok m hm
    obtain ⟨h1, h2, h3, h4⟩ := hok
    rcases List.mem_cons.mp hm with he | hr
    · rw [he]
      exact h1
    · have := ih x.2 h4 m hr
      omega

theorem spliceAbs_step (doc : Str) (g : Str → Str) (i : Nat)
    (M : List (Nat × Nat)) (hi : i < doc.length)
    (hM : ∀ m ∈ M, i + 1 ≤ m.1) :
    spliceAbs doc g i M = doc.get ⟨i, hi⟩ :: spliceAbs doc g (i + 1) M := by
  cases M with
  | nil =>
    rw [spliceAbs, spliceAbs, List.drop_eq_getElem_cons hi, List.get_eq_getElem]
  | cons m rest =>
    have h1 : i + 1 ≤ m.1 := hM m (List.mem_cons_self _ _)
    rw [spliceAbs, spliceAbs, List.drop_eq_getElem_cons hi,
      show m.1 - i = (m.1 - (i + 1)) + 1 by omega, List.take_succ_cons,
      List.cons_append, List.cons_append, List.get_eq_getElem]

theorem spliceAbs_scanFromAux (ic : Bool) (toks : List RTok) (g : Str → Str)
    (doc : Str) (hp : 0 < countLits toks) :
    ∀ n i, doc.length + 1 - i ≤ n →
      spliceAbs doc g i (scanFrom ic toks doc i) = rewriteFrom ic toks g doc i := by
  intro n
  induction n with
  | zero =>
    intro i hn
    rw [scanFrom, dif_neg (by omega), spliceAbs, rewriteFrom, dif_neg (by omega)]
    exact List.drop_eq_nil_of_le (by omega)
  | succ n ih =>
    intro i hn
    by_cases hi : i ≤ doc.length
    · cases hm : toksMatchAt ic toks doc i with
      | some e =>
        have hend := toksMatchAt_end ic toks doc i e hm
        have hwithin := toksMatchAt_within ic toks doc i e hp hm
        have hlt : i < e := by omega
        rw [scanFrom, dif_pos hi]
        simp only [hm]
        rw [dif_pos hlt, spliceAbs, rewriteFrom, dif_pos hwithin.1]
        simp only [hm]
        rw [dif_pos hlt, ih e (by omega)]
        simp
      | none =>
        rw [scanFrom, dif_pos hi]
        simp only [hm]
        by_cases hi2 : i < doc.length
        · have hge : ∀ m ∈ scanFrom ic toks doc (i + 1), i + 1 ≤ m.1 :=
            EditsOK_ge doc _ (i + 1) (scanFrom_EditsOK ic toks doc (i + 1) hp)
          have hr : rewriteFrom ic toks g doc i =
              doc.get ⟨i, hi2⟩ :: rewriteFrom ic toks g doc (i + 1) := by
            rw [rewriteFrom, dif_pos hi2]
            simp only [hm]
          rw [spliceAbs_step doc g i _ hi2 hge, ih (i + 1) (by omega), hr]
        · have hieq : ¬ (i + 1 ≤ doc.length) := by omega
          rw [scanFrom, dif_neg hieq, spliceAbs, rewriteFrom, dif_neg (by omega)]
          exact List.drop_eq_nil_of_le (by omega)
    · rw [scanFrom, dif_neg hi, spliceAbs, rewriteFrom, dif_neg (by omega)]
      exact List.drop_eq_nil_of_le (by omega)

theorem spliceAbs_scanFrom (ic : Bool) (toks : List RTok) (g : Str → Str)
    (doc : Str) (i : Nat) (hp : 0 < countLits toks) :
    spliceAbs doc g i (scanFrom ic toks doc i) = rewriteFrom ic toks g doc i :=
  spliceAbs_scanFromAux ic toks g doc hp (doc.length + 1 - i) i Nat.le.refl

/-! ## Lemmas: the greedy structural rewrite -/

theorem toksMatchAt_buildToks (p : Str) (needB : Bool) (doc : Str) (i : Nat) :
    toksMatchAt false (buildToks p needB) doc i =
      if matchesAt false p doc i = true ∧
          (needB = true → boundaryAt doc i = true ∧ boundaryAt doc (i + p.length) = true)
      then some (i + p.length) else none := by
  cases needB with
  | false =>
    rw [buildToks, if_neg (by simp), toksMatchAt_lits]
    by_cases hm2 : matchesAt false p doc i = true <;> simp [hm2]
  | true =>
    rw [buildToks, if_pos rfl]
    by_cases hb1 : boundaryAt doc i = true
    · by_cases hm2 : matchesAt false p doc i = true
      · by_cases hb2 : boundaryAt doc (i + p.length) = true
        · simp [toksMatchAt, hb1, toksMatchAt_append, toksMatchAt_lits, hm2, hb2]
        · simp [toksMatchAt, hb1, toksMatchAt_append, toksMatchAt_lits, hm2, hb2]
      · simp [toksMatchAt, hb1, toksMatchAt_append, toksMatchAt_lits, hm2]
    · simp [toksMatchAt, hb1]

theorem matchesAt_false_iff_take (p doc : Str) (i : Nat) :
    matchesAt false p doc i = true ↔ (doc.drop i).take p.length = p := by
  rw [matchesAt_iff_foldCase]
  simp [foldCase]

theorem getElem?_of_take_eq (doc : Str) (i : Nat) (p : Str)
    (hp : (doc.drop i).take p.length = p) (j : Nat) (hj : j < p.length) :
    doc[i + j]? = some (p.get ⟨j, hj⟩) := by
  have h1 : p[j]? = some (p.get ⟨j, hj⟩) := by
    rw [List.getElem?_eq_getElem hj, List.get_eq_getElem]
  rw [← h1]
  conv_rhs => rw [← hp]
  rw [List.getElem?_take, if_pos hj, List.getElem?_drop]

theorem wordAt_of_take_eq (doc : Str) (i : Nat) (p : Str)
    (hp : (doc.drop i).take p.length = p) (j : Nat) (hj : j < p.length) :
    wordAt doc (i + j) = isWordChar (p.get ⟨j, hj⟩) := by
  rw [wordAt, getElem?_of_take_eq doc i p hp j hj]

theorem tailBoundaryOk_drop (doc : Str) (k : Nat) :
    tailBoundaryOk (doc.drop k) = !(wordAt doc k) := by
  rw [wordAt]
  have h0 : doc[k]? = (doc.drop k)[0]? := by
    rw [List.getElem?_drop]
    simp
  rw [h0]
  cases hd : doc.drop k with
  | nil => simp [tailBoundaryOk]
  | cons c rest => simp [tailBoundaryOk]

theorem greedy_nil (p : Str) (g : Str → Str) (needB pw : Bool) :
    greedyRewriteW p g needB pw [] = [] := by
  rw [greedyRewriteW]

theorem greedy_cons_pos (p : Str) (g : Str → Str) (needB pw : Bool) (c : Char) (l : Str)
    (h : p ≠ [] ∧ (c :: l).take p.length = p ∧
        (needB = true → pw = false ∧ tailBoundaryOk ((c :: l).drop p.length) = true)) :
    greedyRewriteW p g needB pw (c :: l) =
      g p ++ greedyRewriteW p g needB (lastCharW p pw) ((c :: l).drop p.length) := by
  rw [greedyRewriteW, dif_pos h]

theorem greedy_cons_neg (p : Str) (g : Str → Str) (needB pw : Bool) (c : Char) (l : Str)
    (h : ¬ (p ≠ [] ∧ (c :: l).take p.length = p ∧
        (needB = true → pw = false ∧ tailBoundaryOk ((c :: l).drop p.length) = true))) :
    greedyRewriteW p g needB pw (c :: l) =
      c :: greedyRewriteW p g needB (isWordChar c) l := by
  rw [greedyRewriteW, dif_neg h]

theorem boundaryAt_prevW (doc : Str) (i : Nat) :
    boundaryAt doc i = (prevWAt doc i != wordAt doc i) := rfl

theorem wordAt_head_of_take (p doc : Str) (i : Nat) (hpne : p ≠ [])
    (hword : p.all isWordChar = true)
    (htake : (doc.drop i).take p.length = p) :
    wordAt doc i = true := by
  have hppos : 0 < p.length := List.length_pos.mpr hpne
  have hv := wordAt_of_take_eq doc i p htake 0 hppos
  rw [Nat.add_zero] at hv
  rw [hv]
  rw [List.all_eq_true] at hword
  exact hword _ (List.get_mem p 0 hppos)

theorem boundary_head_iff (p doc : Str) (i : Nat) (hpne : p ≠ [])
    (hword : p.all isWordChar = true)
    (htake : (doc.drop i).take p.length = p) :
    boundaryAt doc i = !(prevWAt doc i) := by
  rw [boundaryAt_prevW, wordAt_head_of_take p doc i hpne hword htake]
  cases prevWAt doc i <;> rfl

theorem prevW_after_match (p doc : Str) (i : Nat) (pw : Bool) (hpne : p ≠ [])
    (htake : (doc.drop i).take p.length = p) :
    prevWAt doc (i + p.length) = lastCharW p pw := by
  have hppos : 0 < p.length := List.length_pos.mpr hpne
  have hne0 : ((i + p.length == 0) : Bool) = false := by
    simp only [beq_eq_false_iff_ne, ne_eq]
    omega
  rw [prevWAt, hne0]
  simp only [Bool.false_eq_true, if_false]
  have hv := wordAt_of_take_eq doc i p htake (p.length - 1) (by omega)
  rw [show i + (p.length - 1) = i + p.length - 1 by omega] at hv
  rw [hv, lastCharW, List.getLast?_eq_getElem?,
    List.getElem?_eq_getElem (by omega : p.length - 1 < p.length)]
  rfl

theorem boundary_tail_iff (p doc : Str) (i : Nat) (hpne : p ≠ [])
    (hword : p.all isWordChar = true)
    (htake : (doc.drop i).take p.length = p) :
    boundaryAt doc (i + p.length) = tailBoundaryOk (doc.drop (i + p.length)) := by
  have hppos : 0 < p.length := List.length_pos.mpr hpne
  have hprev : prevWAt doc (i + p.length) = true := by
    have h1 := prevW_after_match p doc i true hpne htake
    rw [h1, lastCharW, List.getLast?_eq_getElem?,
      List.getElem?_eq_getElem (by omega : p.length - 1 < p.length)]
    rw [List.all_eq_true] at hword
    exact hword _ (List.getElem_mem _)
  rw [boundaryAt_prevW, hprev, tailBoundaryOk_drop]
  cases wordAt doc (i + p.length) <;> rfl

theorem prevWAt_succ (doc : Str) (i : Nat) (h : i < doc.length) :
    prevWAt doc (i + 1) = isWordChar doc[i] := by
  have hne0 : ((i + 1 == 0) : Bool) = false := by
    simp only [beq_eq_false_iff_ne, ne_eq]
    omega
  rw [prevWAt, hne0]
  simp only [Bool.false_eq_true, if_false, Nat.add_sub_cancel]
  rw [wordAt, List.getElem?_eq_getElem h]

/-- Position-indexed rewriting with word-boundary tokens coincides with the
greedy structural rewrite that threads the previous-character word flag. -/
theorem rewriteFrom_greedyAux (p : Str) (g : Str → Str) (needB : Bool) (doc : Str)
    (hpne : p ≠ []) (hw : needB = true → p.all isWordChar = true) :
    ∀ n i, doc.length - i ≤ n → i ≤ doc.length →
      rewriteFrom false (buildToks p needB) g doc i =
        greedyRewriteW p g needB (prevWAt doc i) (doc.drop i) := by
  intro n
  induction n with
  | zero =>
    intro i hn hile
    have hieq : doc.length ≤ i := by omega
    rw [rewriteFrom, dif_neg (by omega), List.drop_eq_nil_of_le hieq, greedy_nil]
  | succ n ih =>
    intro i hn hile
    by_cases hlt : i < doc.length
    · have hppos : 0 < p.length := List.length_pos.mpr hpne
      have hdropc : doc.drop i = doc[i] :: doc.drop (i + 1) :=
        List.drop_eq_getElem_cons hlt
      by_cases hc : (matchesAt false p doc i = true ∧
          (needB = true → boundaryAt doc i = true ∧ boundaryAt doc (i + p.length) = true))
      · have htake : (doc.drop i).take p.length = p :=
          (matchesAt_false_iff_take p doc i).mp hc.1
        have hplen_le : p.length ≤ doc.length - i := by
          have h1 := congrArg List.length htake
          rw [List.length_take, List.length_drop] at h1
          omega
        have hm : toksMatchAt false (buildToks p needB) doc i = some (i + p.length) := by
          rw [toksMatchAt_buildToks, if_pos hc]
        rw [rewriteFrom, dif_pos hlt]
        simp only [hm]
        rw [dif_pos (by omega : i < i + p.length)]
        rw [show i + p.length - i = p.length by omega, htake]
        rw [ih (i + p.length) (by omega) (by omega)]
        have hguard : p ≠ [] ∧ (doc[i] :: doc.drop (i + 1)).take p.length = p ∧
            (needB = true → prevWAt doc i = false ∧
              tailBoundaryOk ((doc[i] :: doc.drop (i + 1)).drop p.length) = true) := by
          refine ⟨hpne, by rw [← hdropc]; exact htake, ?_⟩
          intro hB
          obtain ⟨hb1, hb2⟩ := hc.2 hB
          constructor
          · rw [boundary_head_iff p doc i hpne (hw hB) htake] at hb1
            cases hpw : prevWAt doc i
            · rfl
            · rw [hpw] at hb1
              exact absurd hb1 (by simp)
          · have hd2 : (doc[i] :: doc.drop (i + 1)).drop p.length = doc.drop (i + p.length) := by
              rw [← hdropc, List.drop_drop]
            rw [hd2, ← boundary_tail_iff p doc i hpne (hw hB) htake]
            exact hb2
        conv_rhs => rw [hdropc]
        rw [greedy_cons_pos p g needB (prevWAt doc i) doc[i] (doc.drop (i + 1)) hguard]
        have hd2 : (doc[i] :: doc.drop (i + 1)).drop p.length = doc.drop (i + p.length) := by
          rw [← hdropc, List.drop_drop]
        rw [hd2, prevW_after_match p doc i (prevWAt doc i) hpne htake]
      · have hm : toksMatchAt false (buildToks p needB) doc i = none := by
          rw [toksMatchAt_buildToks, if_neg hc]
        rw [rewriteFrom, dif_pos hlt]
        simp only [hm]
        rw [ih (i + 1) (by omega) (by omega)]
        have hguardneg : ¬ (p ≠ [] ∧ (doc[i] :: doc.drop (i + 1)).take p.length = p ∧
            (needB = true → prevWAt doc i = false ∧
              tailBoundaryOk ((doc[i] :: doc.drop (i + 1)).drop p.length) = true)) := by
          rintro ⟨hg1, hg2, hg3⟩
          apply hc
          have htake : (doc.drop i).take p.length = p := by rw [hdropc]; exact hg2
          refine ⟨(matchesAt_false_iff_take p doc i).mpr htake, ?_⟩
          intro hB
          obtain ⟨hpw, htail⟩ := hg3 hB
          constructor
          · rw [boundary_head_iff p doc i hpne (hw hB) htake, hpw]
            rfl
          · have hd2 : (doc[i] :: doc.drop (i + 1)).drop p.length = doc.drop (i + p.length) := by
              rw [← hdropc, List.drop_drop]
            rw [hd2, tailBoundaryOk_drop] at htail
            rw [boundary_tail_iff p doc i hpne (hw hB) htake, tailBoundaryOk_drop]
            exact htail
        conv_rhs => rw [hdropc]
        rw [greedy_cons_neg p g needB (prevWAt doc i) doc[i] (doc.drop (i + 1)) hguardneg]
        rw [prevWAt_succ doc i hlt, List.get_eq_getElem]
    · rw [rewriteFrom, dif_neg hlt, List.drop_eq_nil_of_le (by omega), greedy_nil]

/-- Top-level form: rewriting from position 0 is the greedy rewrite of the
whole document with initial previous-word flag false. -/
theorem rewriteFrom_greedy (p : Str) (g : Str → Str) (needB : Bool) (doc : Str)
    (hpne : p ≠ []) (hw : needB = true → p.all isWordChar = true) :
    rewriteFrom false (buildToks p needB) g doc 0 =
      greedyRewriteW p g needB false doc := by
  have h := rewriteFrom_greedyAux p g needB doc hpne hw doc.length 0 (by omega) (by omega)
  rw [h, prevWAt, List.drop_zero]
  rfl

/-! ## Lemmas: the four Permanent-Mark commands as simultaneous rewrites -/

theorem EditsOK_mem_bounds (doc : Str) :
    ∀ (M : List (Nat × Nat)) (lo : Nat), EditsOK doc lo M →
      ∀ m ∈ M, m.1 ≤ m.2 ∧ m.2 ≤ doc.length := by
  intro M
  induction M with
  | nil =>
    intro lo _ m hm
    exact absurd hm (List.not_mem_nil m)
  | cons x rest ih =>
    intro lo hok m hm
    obtain ⟨h1, h2, h3, h4⟩ := hok
    rcases List.mem_cons.mp hm with h | h
    · rw [h]
      exact ⟨h2, h3⟩
    · exact ih x.2 h4 m h

theorem buildToks_false (p : Str) : buildToks p false = litToks p := by
  rw [buildToks, if_neg (by simp)]

theorem countLits_buildToks (p : Str) (b : Bool) :
    countLits (buildToks p b) = p.length := by
  cases b with
  | false => rw [buildToks_false, countLits_litToks]
  | true =>
    rw [buildToks, if_pos rfl, countLits]
    have h2 : countLits (litToks p ++ [RTok.wordB]) = countLits (litToks p) := by
      induction p with
      | nil => rfl
      | cons c t iht => simpa [litToks, countLits] using iht
    rw [h2, countLits_litToks]

theorem regexExecAll_litToks (p doc : Str) (hp : p ≠ []) :
    regexExecAll (buildRegex p true false) doc = scanFrom false (litToks p) doc 0 := by
  have hpp : 0 < countLits (litToks p) := by
    rw [countLits_litToks]
    exact List.length_pos.mpr hp
  rw [regexExecAll, parse_buildRegex_noWW, buildRegex_ignoreCase]
  show jsExecAll (!true) (litToks p) doc = scanFrom false (litToks p) doc 0
  rw [jsExecAll, execLoopS_spec (!true) (litToks p) doc 0 hpp]
  rfl

theorem regexExecAll_WW (p doc : Str) (hp : p ≠ []) :
    regexExecAll (buildRegex p true true) doc =
      scanFrom false (buildToks p (p.all isWordChar)) doc 0 := by
  cases hw : p.all isWordChar with
  | false =>
    rw [buildRegex_WW_nonword p true hw, buildToks_false]
    exact regexExecAll_litToks p doc hp
  | true =>
    have hpp : 0 < countLits (buildToks p true) := by
      rw [countLits_buildToks]
      exact List.length_pos.mpr hp
    rw [regexExecAll, parse_buildRegex_WW_word p true hp hw, buildRegex_ignoreCase]
    show jsExecAll (!true) (RTok.wordB :: (litToks p ++ [RTok.wordB])) doc =
      scanFrom false (buildToks p true) doc 0
    rw [jsExecAll]
    have hbt : RTok.wordB :: (litToks p ++ [RTok.wordB]) = buildToks p true := by
      rw [buildToks, if_pos rfl]
    rw [hbt, execLoopS_spec (!true) (buildToks p true) doc 0 hpp]
    rfl

theorem trim_isEmpty_false (s : Str) (hne : trim s ≠ []) : (trim s).isEmpty = false := by
  cases h : trim s with
  | nil => exact absurd h hne
  | cons a l => rfl

/-- The wrap command edits the document exactly as the simultaneous splice of
`==...==` wrappings at the original match offsets. -/
theorem wrap_splice (d s : Str) (hne : trim s ≠ [])
    (hws : (trim s).any Char.isWhitespace = false) :
    resultDoc (setPermanentHighlightOccurrences (some ⟨d, s⟩)) d =
      spliceAbs d wrapMark 0 (regexExecAll (buildRegex (trim s) true false) d) := by
  have hpp : 0 < countLits (litToks (trim s)) := by
    rw [countLits_litToks]
    exact List.length_pos.mpr hne
  have hms : regexExecAll (buildRegex (trim s) true false) d =
      scanFrom false (litToks (trim s)) d 0 := regexExecAll_litToks (trim s) d hne
  have hcmd : setPermanentHighlightOccurrences (some ⟨d, s⟩) =
      (if (regexExecAll (buildRegex (trim s) true false) d).isEmpty then
        CmdResult.aborted "No occurrences found."
      else
        CmdResult.edited
          ((regexExecAll (buildRegex (trim s) true false) d).reverse.foldl
            (fun x m => applyOne x m.1 m.2 (wrapInsert d m)) d)
          (regexExecAll (buildRegex (trim s) true false) d).length) := by
    simp only [setPermanentHighlightOccurrences, trim_isEmpty_false s hne, hws,
      Bool.or_self, Bool.false_eq_true, if_false]
  by_cases hE : (regexExecAll (buildRegex (trim s) true false) d).isEmpty = true
  · have hnil : regexExecAll (buildRegex (trim s) true false) d = [] :=
      List.isEmpty_iff.mp hE
    rw [hcmd, if_pos hE, hnil, resultDoc, spliceAbs, List.drop_zero]
  · rw [hcmd, if_neg hE, resultDoc]
    have hok : EditsOK d 0 (regexExecAll (buildRegex (trim s) true false) d) := by
      rw [hms]
      exact scanFrom_EditsOK false (litToks (trim s)) d 0 hpp
    have h := foldDescIns_spliceAbs d wrapMark (wrapInsert d)
      (regexExecAll (buildRegex (trim s) true false) d) 0 hok (fun m _ => rfl)
    rw [h, List.take_zero, List.nil_append]

/-- The unwrap command edits the document exactly as the simultaneous splice
stripping two characters from each end of every match, at the original
offsets. -/
theorem unwrap_splice (d s : Str) (hne : trim s ≠ [])
    (hws : (trim s).any Char.isWhitespace = false) :
    resultDoc (removePermanentHighlightOccurrences (some ⟨d, s⟩)) d =
      spliceAbs d unwrapMark 0
        (regexExecAll (buildRegex (('=' :: '=' :: trim s) ++ ['=', '=']) true false) d) := by
  have hqne : ('=' :: '=' :: trim s) ++ ['=', '='] ≠ [] := by simp
  have hpp : 0 < countLits (litToks (('=' :: '=' :: trim s) ++ ['=', '='])) := by
    rw [countLits_litToks]
    exact List.length_pos.mpr hqne
  have hms : regexExecAll (buildRegex (('=' :: '=' :: trim s) ++ ['=', '=']) true false) d =
      scanFrom false (litToks (('=' :: '=' :: trim s) ++ ['=', '='])) d 0 :=
    regexExecAll_litToks _ d hqne
  have hcmd : removePermanentHighlightOccurrences (some ⟨d, s⟩) =
      (if (regexExecAll (buildRegex (('=' :: '=' :: trim s) ++ ['=', '=']) true false) d).isEmpty
      then CmdResult.aborted "No highlighted occurrences found."
      else
        CmdResult.edited
          ((regexExecAll (buildRegex (('=' :: '=' :: trim s) ++ ['=', '=']) true false)
              d).reverse.foldl
            (fun x m => applyOne x m.1 m.2 (unwrapInsert d m)) d)
          (regexExecAll (buildRegex (('=' :: '=' :: trim s) ++ ['=', '=']) true false)
            d).length) := by
    simp only [removePermanentHighlightOccurrences, trim_isEmpty_false s hne, hws,
      Bool.or_self, Bool.false_eq_true, if_false]
  by_cases hE : (regexExecAll (buildRegex (('=' :: '=' :: trim s) ++ ['=', '=']) true false)
      d).isEmpty = true
  · have hnil : regexExecAll (buildRegex (('=' :: '=' :: trim s) ++ ['=', '=']) true false)
        d = [] := List.isEmpty_iff.mp hE
    rw [hcmd, if_pos hE, hnil, resultDoc, spliceAbs, List.drop_zero]
  · rw [hcmd, if_neg hE, resultDoc]
    have hok : EditsOK d 0
        (regexExecAll (buildRegex (('=' :: '=' :: trim s) ++ ['=', '=']) true false) d) := by
      rw [hms]
      exact scanFrom_EditsOK false _ d 0 hpp
    have hins : ∀ m ∈ regexExecAll (buildRegex (('=' :: '=' :: trim s) ++ ['=', '=']) true false)
        d, unwrapInsert d m = unwrapMark ((d.drop m.1).take (m.2 - m.1)) := by
      intro m hm
      obtain ⟨hft, htl⟩ := EditsOK_mem_bounds d _ 0 hok m hm
      rw [unwrapInsert, unwrapMark]
      have hlen : ((d.drop m.1).take (m.2 - m.1)).length = m.2 - m.1 := by
        rw [List.length_take, List.length_drop]
        omega
      rw [hlen, List.drop_take, List.drop_drop, List.take_take]
      rw [show m.1 + 2 = 2 + m.1 from by omega]
      rw [show min (m.2 - m.1 - 4) (m.2 - m.1 - 2) = m.2 - m.1 - 4 from by omega]
      rw [show m.2 - 2 - (2 + m.1) = m.2 - m.1 - 4 from by omega]
    have h := foldDescIns_spliceAbs d unwrapMark (unwrapInsert d)
      (regexExecAll (buildRegex (('=' :: '=' :: trim s) ++ ['=', '=']) true false) d) 0 hok hins
    rw [h, List.take_zero, List.nil_append]

/-- The tag command edits the document exactly as the simultaneous splice
prefixing `#` to every whole-word match at the original offsets. -/
theorem tag_splice (d s : Str) (hne : trim s ≠ [])
    (hws : (trim s).any Char.isWhitespace = false) :
    resultDoc (createTagForOccurrences (some ⟨d, s⟩)) d =
      spliceAbs d tagMark 0 (regexExecAll (buildRegex (trim s) true true) d) := by
  have hpp : 0 < countLits (buildToks (trim s) ((trim s).all isWordChar)) := by
    rw [countLits_buildToks]
    exact List.length_pos.mpr hne
  have hms : regexExecAll (buildRegex (trim s) true true) d =
      scanFrom false (buildToks (trim s) ((trim s).all isWordChar)) d 0 :=
    regexExecAll_WW (trim s) d hne
  have hcmd : createTagForOccurrences (some ⟨d, s⟩) =
      (if (regexExecAll (buildRegex (trim s) true true) d).isEmpty then
        CmdResult.aborted "No occurrences found."
      else
        CmdResult.edited
          ((regexExecAll (buildRegex (trim s) true true) d).reverse.foldl
            (fun x m => applyOne x m.1 m.2 ('#' :: (x.drop m.1).take (m.2 - m.1))) d)
          (regexExecAll (buildRegex (trim s) true true) d).length) := by
    simp only [createTagForOccurrences, trim_isEmpty_false s hne, hws,
      Bool.or_self, Bool.false_eq_true, if_false]
  by_cases hE : (regexExecAll (buildRegex (trim s) true true) d).isEmpty = true
  · have hnil : regexExecAll (buildRegex (trim s) true true) d = [] :=
      List.isEmpty_iff.mp hE
    rw [hcmd, if_pos hE, hnil, resultDoc, spliceAbs, List.drop_zero]
  · rw [hcmd, if_neg hE, resultDoc]
    have hok : EditsOK d 0 (regexExecAll (buildRegex (trim s) true true) d) := by
      rw [hms]
      exact scanFrom_EditsOK false _ d 0 hpp
    have h := foldDescCur_spliceAbs d tagMark
      (regexExecAll (buildRegex (trim s) true true) d) 0 hok
    rw [show (fun (x : Str) (m : Nat × Nat) =>
        applyOne x m.1 m.2 ('#' :: (x.drop m.1).take (m.2 - m.1))) =
      (fun (x : Str) (m : Nat × Nat) =>
        applyOne x m.1 m.2 (tagMark ((x.drop m.1).take (m.2 - m.1)))) from rfl]
    rw [h, List.take_zero, List.nil_append]

/-- The untag command edits the document exactly as the simultaneous splice
stripping the leading `#` run of every match at the original offsets. -/
theorem untag_splice (d s : Str) (hne : trim s ≠ [])
    (hws : (trim s).any Char.isWhitespace = false) :
    resultDoc (removeTagFromOccurrences (some ⟨d, s⟩)) d =
      spliceAbs d stripLeadingHashes 0
        (regexExecAll (buildRegex ('#' :: trim s) true false) d) := by
  have hqne : '#' :: trim s ≠ [] := by simp
  have hpp : 0 < countLits (litToks ('#' :: trim s)) := by
    rw [countLits_litToks]
    exact List.length_pos.mpr hqne
  have hms : regexExecAll (buildRegex ('#' :: trim s) true false) d =
      scanFrom false (litToks ('#' :: trim s)) d 0 := regexExecAll_litToks _ d hqne
  have hcmd : removeTagFromOccurrences (some ⟨d, s⟩) =
      (if (regexExecAll (buildRegex ('#' :: trim s) true false) d).isEmpty then
        CmdResult.aborted "No tagged occurrences found."
      else
        CmdResult.edited
          ((regexExecAll (buildRegex ('#' :: trim s) true false) d).reverse.foldl
            (fun x m => applyOne x m.1 m.2
              (stripLeadingHashes ((x.drop m.1).take (m.2 - m.1)))) d)
          (regexExecAll (buildRegex ('#' :: trim s) true false) d).length) := by
    simp only [removeTagFromOccurrences, trim_isEmpty_false s hne, hws,
      Bool.or_self, Bool.false_eq_true, if_false]
  by_cases hE : (regexExecAll (buildRegex ('#' :: trim s) true false) d).isEmpty = true
  · have hnil : regexExecAll (buildRegex ('#' :: trim s) true false) d = [] :=
      List.isEmpty_iff.mp hE
    rw [hcmd, if_pos hE, hnil, resultDoc, spliceAbs, List.drop_zero]
  · rw [hcmd, if_neg hE, resultDoc]
    have hok : EditsOK d 0 (regexExecAll (buildRegex ('#' :: trim s) true false) d) := by
      rw [hms]
      exact scanFrom_EditsOK false _ d 0 hpp
    have h := foldDescCur_spliceAbs d stripLeadingHashes
      (regexExecAll (buildRegex ('#' :: trim s) true false) d) 0 hok
    rw [h, List.take_zero, List.nil_append]

/-! ## Lemmas: the four commands as greedy rewrites -/

theorem wrap_greedy (d s : Str) (hne : trim s ≠ [])
    (hws : (trim s).any Char.isWhitespace = false) :
    resultDoc (setPermanentHighlightOccurrences (some ⟨d, s⟩)) d =
      greedyRewriteW (trim s) wrapMark false false d := by
  have hpp : 0 < countLits (litToks (trim s)) := by
    rw [countLits_litToks]
    exact List.length_pos.mpr hne
  rw [wrap_splice d s hne hws, regexExecAll_litToks (trim s) d hne,
    spliceAbs_scanFrom false (litToks (trim s)) wrapMark d 0 hpp,
    ← buildToks_false (trim s)]
  exact rewriteFrom_greedy (trim s) wrapMark false d hne
    (fun h => absurd h Bool.false_ne_true)

theorem unwrap_greedy (d s : Str) (hne : trim s ≠ [])
    (hws : (trim s).any Char.isWhitespace = false) :
    resultDoc (removePermanentHighlightOccurrences (some ⟨d, s⟩)) d =
      greedyRewriteW (('=' :: '=' :: trim s) ++ ['=', '=']) unwrapMark false false d := by
  have hqne : ('=' :: '=' :: trim s) ++ ['=', '='] ≠ [] := by simp
  have hpp : 0 < countLits (litToks (('=' :: '=' :: trim s) ++ ['=', '='])) := by
    rw [countLits_litToks]
    exact List.length_pos.mpr hqne
  rw [unwrap_splice d s hne hws, regexExecAll_litToks _ d hqne,
    spliceAbs_scanFrom false (litToks (('=' :: '=' :: trim s) ++ ['=', '='])) unwrapMark d 0 hpp,
    ← buildToks_false (('=' :: '=' :: trim s) ++ ['=', '='])]
  exact rewriteFrom_greedy (('=' :: '=' :: trim s) ++ ['=', '=']) unwrapMark false d hqne
    (fun h => absurd h Bool.false_ne_true)

theorem tag_greedy (d s : Str) (hne : trim s ≠ [])
    (hws : (trim s).any Char.isWhitespace = false) :
    resultDoc (createTagForOccurrences (some ⟨d, s⟩)) d =
      greedyRewriteW (trim s) tagMark ((trim s).all isWordChar) false d := by
  have hpp : 0 < countLits (buildToks (trim s) ((trim s).all isWordChar)) := by
    rw [countLits_buildToks]
    exact List.length_pos.mpr hne
  rw [tag_splice d s hne hws, regexExecAll_WW (trim s) d hne,
    spliceAbs_scanFrom false (buildToks (trim s) ((trim s).all isWordChar)) tagMark d 0 hpp]
  exact rewriteFrom_greedy (trim s) tagMark ((trim s).all isWordChar) d hne (fun h => h)

theorem untag_greedy (d s : Str) (hne : trim s ≠ [])
    (hws : (trim s).any Char.isWhitespace = false) :
    resultDoc (removeTagFromOccurrences (some ⟨d, s⟩)) d =
      greedyRewriteW ('#' :: trim s) stripLeadingHashes false false d := by
  have hqne : '#' :: trim s ≠ [] := by simp
  have hpp : 0 < countLits (litToks ('#' :: trim s)) := by
    rw [countLits_litToks]
    exact List.length_pos.mpr hqne
  rw [untag_splice d s hne hws, regexExecAll_litToks _ d hqne,
    spliceAbs_scanFrom false (litToks ('#' :: trim s)) stripLeadingHashes d 0 hpp,
    ← buildToks_false ('#' :: trim s)]
  exact rewriteFrom_greedy ('#' :: trim s) stripLeadingHashes false d hqne
    (fun h => absurd h Bool.false_ne_true)

/-! ## Lemmas: round-trip inverses of the greedy rewrites -/

theorem greedy_match_step (p : Str) (g : Str → Str) (needB pw : Bool) (l : Str)
    (h : p ≠ [] ∧ l.take p.length = p ∧
        (needB = true → pw = false ∧ tailBoundaryOk (l.drop p.length) = true)) :
    greedyRewriteW p g needB pw l =
      g p ++ greedyRewriteW p g needB (lastCharW p pw) (l.drop p.length) := by
  cases l with
  | nil =>
    exfalso
    have h2 := h.2.1
    rw [List.take_nil] at h2
    exact h.1 h2.symm
  | cons c t => exact greedy_cons_pos p g needB pw c t h

theorem unwrapMark_of_wrapped (p : Str) :
    unwrapMark (('=' :: '=' :: p) ++ ['=', '=']) = p := by
  have h1 : (('=' :: '=' :: p) ++ ['=', '=']).drop 2 = p ++ ['=', '='] := rfl
  have h2 : (('=' :: '=' :: p) ++ ['=', '=']).length = p.length + 4 := by
    simp
  rw [unwrapMark, h1, h2, show p.length + 4 - 4 = p.length from by omega]
  exact List.take_left p _

theorem strip_hash_of_not_mem (p : Str) (hp : p ≠ []) (hps : '#' ∉ p) :
    stripLeadingHashes ('#' :: p) = p := by
  rw [stripLeadingHashes, List.dropWhile_cons,
    if_pos (show (('#' == '#') = true) from rfl)]
  cases p with
  | nil => exact absurd rfl hp
  | cons a t =>
    rw [List.dropWhile_cons, if_neg]
    intro hh
    rw [beq_iff_eq] at hh
    apply hps
    rw [← hh]
    exact List.mem_cons_self a t

/-- Greedy unwrap is a left inverse of greedy wrap on `=`-free documents with
an `=`-free pattern, for any threading of the previous-word flags. -/
theorem wrap_unwrap_inv (p : Str) (hp : p ≠ []) (hps : '=' ∉ p) :
    ∀ n doc, doc.length ≤ n → '=' ∉ doc → ∀ pw1 pw2,
      greedyRewriteW (('=' :: '=' :: p) ++ ['=', '=']) unwrapMark false pw2
        (greedyRewriteW p wrapMark false pw1 doc) = doc := by
  intro n
  induction n with
  | zero =>
    intro doc hlen _ pw1 pw2
    have hd : doc = [] := List.eq_nil_of_length_eq_zero (by omega)
    rw [hd, greedy_nil, greedy_nil]
  | succ n ih =>
    intro doc hlen hdoc pw1 pw2
    cases doc with
    | nil => rw [greedy_nil, greedy_nil]
    | cons c rest =>
      have hppos : 0 < p.length := List.length_pos.mpr hp
      have hrest : '=' ∉ rest := fun hx => hdoc (List.mem_cons_of_mem c hx)
      by_cases hm : (c :: rest).take p.length = p
      · rw [greedy_cons_pos p wrapMark false pw1 c rest
          ⟨hp, hm, fun h => absurd h Bool.false_ne_true⟩]
        rw [show wrapMark p = ('=' :: '=' :: p) ++ ['=', '='] from rfl]
        rw [greedy_match_step (('=' :: '=' :: p) ++ ['=', '=']) unwrapMark false pw2
          ((('=' :: '=' :: p) ++ ['=', '=']) ++
            greedyRewriteW p wrapMark false (lastCharW p pw1) ((c :: rest).drop p.length))
          ⟨by simp, List.take_left _ _, fun h => absurd h Bool.false_ne_true⟩]
        rw [List.drop_left, unwrapMark_of_wrapped]
        have hdlen : ((c :: rest).drop p.length).length ≤ n := by
          rw [List.length_drop]
          simp only [List.length_cons] at hlen ⊢
          omega
        rw [ih ((c :: rest).drop p.length) hdlen
          (fun hx => hdoc (List.mem_of_mem_drop hx))
          (lastCharW p pw1) (lastCharW (('=' :: '=' :: p) ++ ['=', '=']) pw2)]
        conv_rhs => rw [← List.take_append_drop p.length (c :: rest)]
        rw [hm]
      · rw [greedy_cons_neg p wrapMark false pw1 c rest (fun hcc => hm hcc.2.1)]
        have hng : ¬ ((('=' :: '=' :: p) ++ ['=', '=']) ≠ [] ∧
            (c :: greedyRewriteW p wrapMark false (isWordChar c) rest).take
              ((('=' :: '=' :: p) ++ ['=', '=']).length) =
              (('=' :: '=' :: p) ++ ['=', '=']) ∧
            (false = true → pw2 = false ∧ tailBoundaryOk
              ((c :: greedyRewriteW p wrapMark false (isWordChar c) rest).drop
                ((('=' :: '=' :: p) ++ ['=', '=']).length)) = true)) := by
          rintro ⟨_, htk, _⟩
          have hql : (('=' :: '=' :: p) ++ ['=', '=']).length = (p.length + 3) + 1 := by
            simp
          rw [hql, List.take_succ_cons] at htk
          rw [show (('=' :: '=' :: p) ++ ['=', '=']) =
            '=' :: (('=' :: p) ++ ['=', '=']) from rfl] at htk
          injection htk with h1 _
          apply hdoc
          rw [h1]
          exact List.mem_cons_self '=' rest
        rw [greedy_cons_neg (('=' :: '=' :: p) ++ ['=', '=']) unwrapMark false pw2 c
          (greedyRewriteW p wrapMark false (isWordChar c) rest) hng]
        have hrlen : rest.length ≤ n := by
          simp only [List.length_cons] at hlen
          omega
        rw [ih rest hrlen hrest (isWordChar c) (isWordChar c)]

/-- Greedy untag is a left inverse of greedy tag on `#`-free documents with a
`#`-free pattern, for any boundary mode of the tag pass and any threading of
the previous-word flags. -/
theorem tag_untag_inv (p : Str) (needB : Bool) (hp : p ≠ []) (hps : '#' ∉ p) :
    ∀ n doc, doc.length ≤ n → '#' ∉ doc → ∀ pw1 pw2,
      greedyRewriteW ('#' :: p) stripLeadingHashes false pw2
        (greedyRewriteW p tagMark needB pw1 doc) = doc := by
  intro n
  induction n with
  | zero =>
    intro doc hlen _ pw1 pw2
    have hd : doc = [] := List.eq_nil_of_length_eq_zero (by omega)
    rw [hd, greedy_nil, greedy_nil]
  | succ n ih =>
    intro doc hlen hdoc pw1 pw2
    cases doc with
    | nil => rw [greedy_nil, greedy_nil]
    | cons c rest =>
      have hppos : 0 < p.length := List.length_pos.mpr hp
      have hrest : '#' ∉ rest := fun hx => hdoc (List.mem_cons_of_mem c hx)
      by_cases hg : (p ≠ [] ∧ (c :: rest).take p.length = p ∧
          (needB = true → pw1 = false ∧ tailBoundaryOk ((c :: rest).drop p.length) = true))
      · rw [greedy_cons_pos p tagMark needB pw1 c rest hg]
        rw [show tagMark p = '#' :: p from rfl]
        rw [greedy_match_step ('#' :: p) stripLeadingHashes false pw2
          (('#' :: p) ++
            greedyRewriteW p tagMark needB (lastCharW p pw1) ((c :: rest).drop p.length))
          ⟨by simp, List.take_left _ _, fun h => absurd h Bool.false_ne_true⟩]
        rw [List.drop_left, strip_hash_of_not_mem p hp hps]
        have hdlen : ((c :: rest).drop p.length).length ≤ n := by
          rw [List.length_drop]
          simp only [List.length_cons] at hlen ⊢
          omega
        rw [ih ((c :: rest).drop p.length) hdlen
          (fun hx => hdoc (List.mem_of_mem_drop hx))
          (lastCharW p pw1) (lastCharW ('#' :: p) pw2)]
        conv_rhs => rw [← List.take_append_drop p.length (c :: rest)]
        rw [hg.2.1]
      · rw [greedy_cons_neg p tagMark needB pw1 c rest hg]
        have hng : ¬ (('#' :: p) ≠ [] ∧
            (c :: greedyRewriteW p tagMark needB (isWordChar c) rest).take
              (('#' :: p).length) = ('#' :: p) ∧
            (false = true → pw2 = false ∧ tailBoundaryOk
              ((c :: greedyRewriteW p tagMark needB (isWordChar c) rest).drop
                (('#' :: p).length)) = true)) := by
          rintro ⟨_, htk, _⟩
          have hql : ('#' :: p).length = p.length + 1 := by simp
          rw [hql, List.take_succ_cons] at htk
          injection htk with h1 _
          apply hdoc
          rw [h1]
          exact List.mem_cons_self '#' rest
        rw [greedy_cons_neg ('#' :: p) stripLeadingHashes false pw2 c
          (greedyRewriteW p tagMark needB (isWordChar c) rest) hng]
        have hrlen : rest.length ≤ n := by
          simp only [List.length_cons] at hlen
          omega
        rw [ih rest hrlen hrest (isWordChar c) (isWordChar c)]

/-- C6 counterexample: the claimed round-trip fails as stated.  With document
`#ab` and selection `a` (non-empty, whitespace-free), Tag finds no whole-word
occurrence and leaves the document unchanged, but Untag then matches the
pre-existing `#a` and strips its `#`, yielding `ab` instead of restoring
`#ab`. -/
theorem C6_counterexample :
    resultDoc
      (removeTagFromOccurrences (some ⟨resultDoc (createTagForOccurrences
        (some ⟨['#', 'a', 'b'], ['a']⟩)) ['#', 'a', 'b'], ['a']⟩))
      (resultDoc (createTagForOccurrences (some ⟨['#', 'a', 'b'], ['a']⟩)) ['#', 'a', 'b'])
      ≠ ['#', 'a', 'b'] := by
  decide

/-- C6 (amended): for every document and non-empty whitespace-free selection,
Wrap then Unwrap restores the original document provided neither the document
nor the trimmed selection contains the marker character `=`, and Tag then
Untag restores it provided neither contains `#`; both hold for zero or more
occurrences. -/
theorem C6_roundtrip (d s : Str) (hne : trim s ≠ [])
    (hws : (trim s).any Char.isWhitespace = false) :
    ('=' ∉ d → '=' ∉ trim s →
      resultDoc (removePermanentHighlightOccurrences
        (some ⟨resultDoc (setPermanentHighlightOccurrences (some ⟨d, s⟩)) d, s⟩))
        (resultDoc (setPermanentHighlightOccurrences (some ⟨d, s⟩)) d) = d) ∧
    ('#' ∉ d → '#' ∉ trim s →
      resultDoc (removeTagFromOccurrences
        (some ⟨resultDoc (createTagForOccurrences (some ⟨d, s⟩)) d, s⟩))
        (resultDoc (createTagForOccurrences (some ⟨d, s⟩)) d) = d) := by
  constructor
  · intro hd hs
    rw [unwrap_greedy (resultDoc (setPermanentHighlightOccurrences (some ⟨d, s⟩)) d) s hne hws]
    rw [wrap_greedy d s hne hws]
    exact wrap_unwrap_inv (trim s) hne hs d.length d (le_refl _) hd false false
  · intro hd hs
    rw [untag_greedy (resultDoc (createTagForOccurrences (some ⟨d, s⟩)) d) s hne hws]
    rw [tag_greedy d s hne hws]
    exact tag_untag_inv (trim s) ((trim s).all isWordChar) hne hs d.length d
      (le_refl _) hd false false

theorem C6_roundtrip_witness :
    (trim ['c', 'a', 't'] ≠ [] ∧
      (trim ['c', 'a', 't']).any Char.isWhitespace = false) ∧
    resultDoc (removePermanentHighlightOccurrences
      (some ⟨resultDoc (setPermanentHighlightOccurrences
        (some ⟨['a', ' ', 'c', 'a', 't'], ['c', 'a', 't']⟩)) ['a', ' ', 'c', 'a', 't'],
        ['c', 'a', 't']⟩))
      (resultDoc (setPermanentHighlightOccurrences
        (some ⟨['a', ' ', 'c', 'a', 't'], ['c', 'a', 't']⟩)) ['a', ' ', 'c', 'a', 't']) =
      ['a', ' ', 'c', 'a', 't'] ∧
    resultDoc (removeTagFromOccurrences
      (some ⟨resultDoc (createTagForOccurrences
        (some ⟨['a', ' ', 'c', 'a', 't'], ['c', 'a', 't']⟩)) ['a', ' ', 'c', 'a', 't'],
        ['c', 'a', 't']⟩))
      (resultDoc (createTagForOccurrences
        (some ⟨['a', ' ', 'c', 'a', 't'], ['c', 'a', 't']⟩)) ['a', ' ', 'c', 'a', 't']) =
      ['a', ' ', 'c', 'a', 't'] :=
  ⟨⟨by decide, by decide⟩,
    (C6_roundtrip ['a', ' ', 'c', 'a', 't'] ['c', 'a', 't'] (by decide) (by decide)).1
      (by decide) (by decide),
    (C6_roundtrip ['a', ' ', 'c', 'a', 't'] ['c', 'a', 't'] (by decide) (by decide)).2
      (by decide) (by decide)⟩

/-- C7: each Permanent-Mark command applies its per-match edits rightmost
match first (`matches.reverse()` then sequential replacement), and the
resulting document equals the simultaneous rewrite of every match of the
original document at its original offsets (`spliceAbs`): the descending
application order means no edit shifts the offsets of matches not yet
processed. -/
theorem C7_descending_batch_edits (d s : Str) (hne : trim s ≠ [])
    (hws : (trim s).any Char.isWhitespace = false) :
    resultDoc (setPermanentHighlightOccurrences (some ⟨d, s⟩)) d =
      spliceAbs d wrapMark 0 (regexExecAll (buildRegex (trim s) true false) d) ∧
    resultDoc (removePermanentHighlightOccurrences (some ⟨d, s⟩)) d =
      spliceAbs d unwrapMark 0
        (regexExecAll (buildRegex (('=' :: '=' :: trim s) ++ ['=', '=']) true false) d) ∧
    resultDoc (createTagForOccurrences (some ⟨d, s⟩)) d =
      spliceAbs d tagMark 0 (regexExecAll (buildRegex (trim s) true true) d) ∧
    resultDoc (removeTagFromOccurrences (some ⟨d, s⟩)) d =
      spliceAbs d stripLeadingHashes 0
        (regexExecAll (buildRegex ('#' :: trim s) true false) d) :=
  ⟨wrap_splice d s hne hws, unwrap_splice d s hne hws, tag_splice d s hne hws,
    untag_splice d s hne hws⟩

theorem C7_descending_batch_edits_witness :
    (trim ['c', 'a', 't'] ≠ [] ∧
      (trim ['c', 'a', 't']).any Char.isWhitespace = false) ∧
    (resultDoc (setPermanentHighlightOccurrences
        (some ⟨['c', 'a', 't', ' ', 'c', 'a', 't'], ['c', 'a', 't']⟩))
        ['c', 'a', 't', ' ', 'c', 'a', 't'] =
      spliceAbs ['c', 'a', 't', ' ', 'c', 'a', 't'] wrapMark 0
        (regexExecAll (buildRegex (trim ['c', 'a', 't']) true false)
          ['c', 'a', 't', ' ', 'c', 'a', 't']) ∧
    resultDoc (removePermanentHighlightOccurrences
        (some ⟨['c', 'a', 't', ' ', 'c', 'a', 't'], ['c', 'a', 't']⟩))
        ['c', 'a', 't', ' ', 'c', 'a', 't'] =
      spliceAbs ['c', 'a', 't', ' ', 'c', 'a', 't'] unwrapMark 0
        (regexExecAll (buildRegex (('=' :: '=' :: trim ['c', 'a', 't']) ++ ['=', '=']) true
          false) ['c', 'a', 't', ' ', 'c', 'a', 't']) ∧
    resultDoc (createTagForOccurrences
        (some ⟨['c', 'a', 't', ' ', 'c', 'a', 't'], ['c', 'a', 't']⟩))
        ['c', 'a', 't', ' ', 'c', 'a', 't'] =
      spliceAbs ['c', 'a', 't', ' ', 'c', 'a', 't'] tagMark 0
        (regexExecAll (buildRegex (trim ['c', 'a', 't']) true true)
          ['c', 'a', 't', ' ', 'c', 'a', 't']) ∧
    resultDoc (removeTagFromOccurrences
        (some ⟨['c', 'a', 't', ' ', 'c', 'a', 't'], ['c', 'a', 't']⟩))
        ['c', 'a', 't', ' ', 'c', 'a', 't'] =
      spliceAbs ['c', 'a', 't', ' ', 'c', 'a', 't'] stripLeadingHashes 0
        (regexExecAll (buildRegex ('#' :: trim ['c', 'a', 't']) true false)
          ['c', 'a', 't', ' ', 'c', 'a', 't'])) :=
  ⟨⟨by decide, by decide⟩,
    C7_descending_batch_edits ['c', 'a', 't', ' ', 'c', 'a', 't'] ['c', 'a', 't']
      (by decide) (by decide)⟩

end Occura
